import Mathlib

/-!
A shallow embedding of mdfmt's `src/process_md.rs` over `List Char`
(the sequence of Unicode scalar values of a Rust `&str`), together with
theorems about the Line Normalizer (`remove_multiple_blank_lines`) and
the per-file driver (`process_md_file`).

Rust strings are modelled as `List Char`; byte positions (as returned by
`str::find`) are modelled by summing the UTF-8 size of each scalar value,
which is exact because an ASCII pattern can only match at a character
boundary of a UTF-8 string.
-/

set_option maxRecDepth 8000

namespace Mdfmt

/-- Unicode `White_Space` code points, as used by Rust's `str::trim`. -/
def isWS (c : Char) : Bool :=
  let n := c.toNat
  (9 ≤ n && n ≤ 13) || n == 32 || n == 133 || n == 160 || n == 5760 ||
    (8192 ≤ n && n ≤ 8202) || n == 8232 || n == 8233 || n == 8239 || n == 8287 || n == 12288

/-- Rust `str::trim`: remove leading and trailing whitespace. -/
def trim (l : List Char) : List Char :=
  ((l.dropWhile isWS).reverse.dropWhile isWS).reverse

/-- Rust `str::starts_with` on character sequences. -/
def startsWithL : List Char → List Char → Bool
  | _, [] => true
  | [], _ :: _ => false
  | c :: cs, p :: ps => (c == p) && startsWithL cs ps

/-- Number of bytes of the UTF-8 encoding of a scalar value. -/
def utf8Size (c : Char) : Nat :=
  if c.toNat < 128 then 1 else if c.toNat < 2048 then 2 else if c.toNat < 65536 then 3 else 4

/-- Rust `str::len`: length in UTF-8 bytes. -/
def byteLen (s : List Char) : Nat := (s.map utf8Size).sum

/-- Rust `str::find` for a literal pattern: byte offset of the first match.
An ASCII pattern matches a UTF-8 string only at character boundaries, so
searching character-wise is exact. -/
def findSub (s pat : List Char) : Option Nat :=
  if startsWithL s pat then some 0
  else
    match s with
    | [] => none
    | c :: cs => (findSub cs pat).map (· + utf8Size c)

/-- Rust `str::strip_prefix` for a literal pattern. -/
def stripPfx (s pat : List Char) : Option (List Char) :=
  if startsWithL s pat then some (s.drop pat.length) else none

/-- Byte-indexed slicing `(&s[..b], &s[b..])`.  Returns `none` when `b` is
out of range or falls inside the encoding of a character — exactly the
situations where Rust would panic. -/
def splitAtByte (s : List Char) (b : Nat) : Option (List Char × List Char) :=
  if b = 0 then some ([], s)
  else
    match s with
    | [] => none
    | c :: cs =>
      if utf8Size c ≤ b then (splitAtByte cs (b - utf8Size c)).map (fun p => (c :: p.1, p.2))
      else none

/-- Split at every newline character (Rust `str::split('\n')`); always
returns at least one piece. -/
def splitNl : List Char → List (List Char)
  | [] => [[]]
  | c :: cs =>
    if c = '\n' then [] :: splitNl cs
    else
      match splitNl cs with
      | [] => [[c]]
      | p :: ps => (c :: p) :: ps

/-- Strip one trailing carriage return (the `\r` of a `\r\n` line ending). -/
def stripCR (l : List Char) : List Char :=
  match l.getLast? with
  | some c => if c = '\r' then l.dropLast else l
  | none => l

/-- Rust `str::lines`: split on `\n` (a trailing empty piece is dropped),
then strip one trailing `\r` from each line. -/
def linesOf (s : List Char) : List (List Char) :=
  let ps := splitNl s
  let ps := if ps.getLast? = some [] then ps.dropLast else ps
  ps.map stripCR

/-- Rust `Vec::join("\n")`. -/
def joinLF : List (List Char) → List Char
  | [] => []
  | [l] => l
  | l :: l2 :: rest => l ++ '\n' :: joinLF (l2 :: rest)

/-- Rust `str::ends_with('\n')`. -/
def endsLF (s : List Char) : Bool := s.getLast? == some '\n'

/-- Rust `str::trim_end_matches('\n')`: drop every trailing newline. -/
def dropTrailLF (s : List Char) : List Char :=
  (s.reverse.dropWhile (· == '\n')).reverse

/-- The final trailing-newline adjustment of `remove_multiple_blank_lines`. -/
def fixTail (content r : List Char) : List Char :=
  if endsLF content && !endsLF r then r ++ ['\n']
  else if !endsLF content && endsLF r then dropTrailLF r
  else r

/-! Literal character sequences used by the source. -/

def dashes : List Char := ("---").data

def dashesNl : List Char := ("---\n").data

def nlDashesNl : List Char := ("\n---\n").data

def btMark : List Char := ("```").data

def tdMark : List Char := ("~~~").data

def hashMark : List Char := ("#").data

def dashSp : List Char := ("- ").data

def starSp : List Char := ("* ").data

def plusSp : List Char := ("+ ").data

def dotSp : List Char := (". ").data

/-- The empty line pushed by `result.push("")`. -/
def blankL : List Char := []

/-- A line whose trimmed form is empty. -/
def isBlank (l : List Char) : Bool := (trim l).isEmpty

/-- The `is_heading` closure: trimmed line starts with `#` and has at most
six leading `#` characters. -/
def is_heading (l : List Char) : Bool :=
  let t := trim l
  startsWithL t hashMark && decide ((t.takeWhile (· == '#')).length ≤ 6)

/-- The `is_list_marker` closure. -/
def is_list_marker (l : List Char) : Bool :=
  let t := trim l
  startsWithL t dashSp || startsWithL t starSp || startsWithL t plusSp ||
    ((match t.head? with | some c => c.isDigit | none => false) && (findSub t dotSp).isSome)

/-- `lines.get(i + 1).is_some_and(|next| !next.trim().is_empty())`. -/
def nextNonBlank : Option (List Char) → Bool
  | some n => !(isBlank n)
  | none => false

/-- `!result.is_empty() && result.last().is_some_and(|l| !l.trim().is_empty())`. -/
def lastNonBlank (rs : List (List Char)) : Bool :=
  match rs.getLast? with
  | some t => !(isBlank t)
  | none => false

/-- The mutable state of the `for (i, line)` loop of
`remove_multiple_blank_lines`.  `prev` is `lines[i - 1]` (`none` exactly
when `i = 0`), `res` is `result`, `pe` is `prev_was_empty`, `fm` is
`in_frontmatter`, `fence` is `in_code_fence` and `marker` is
`code_fence_marker` (`[]` when unset). -/
structure St where
  prev : Option (List Char)
  res : List (List Char)
  pe : Bool
  fm : Bool
  fence : Bool
  marker : List Char
  deriving DecidableEq, Repr

/-- One iteration of the loop body of `remove_multiple_blank_lines`, for
the current `line`, with `next = lines.get(i + 1)`. -/
def stepFn (st : St) (line : List Char) (next : Option (List Char)) : St :=
  if st.prev = none ∧ trim line = dashes then
    -- i == 0 && line.trim() == "---": enter frontmatter
    { st with fm := true, res := st.res ++ [line], prev := some line }
  else if st.fm = true ∧ trim line = dashes then
    -- close frontmatter; blank separator only if the next line is non-blank
    let r := st.res ++ [line]
    let r := if nextNonBlank next = true then r ++ [blankL] else r
    { st with fm := false, res := r, prev := some line }
  else if st.fm = false ∧
      (startsWithL (trim line) btMark = true ∨ startsWithL (trim line) tdMark = true) ∧
      st.fence = false then
    -- open a code fence, separated from a preceding non-blank line
    let r := if lastNonBlank st.res = true then st.res ++ [blankL] else st.res
    { st with fence := true,
              marker := if startsWithL (trim line) btMark = true then btMark else tdMark,
              res := r ++ [line], pe := false, prev := some line }
  else if st.fm = false ∧ st.fence = true ∧ startsWithL (trim line) st.marker = true ∧
      byteLen st.marker ≤ byteLen (trim line) then
    -- close the code fence; blank separator only if the next line is non-blank
    let r := st.res ++ [line]
    let r := if nextNonBlank next = true then r ++ [blankL] else r
    { st with fence := false, marker := [], res := r, pe := false, prev := some line }
  else if st.fm = true ∨ st.fence = true then
    -- protected region: frontmatter interior or fence interior
    if st.fence = true then
      let pfs := match st.prev with
        | some p => (startsWithL (trim p) btMark || startsWithL (trim p) tdMark) && !st.fm
        | none => false
      let nife := match next with
        | some n => startsWithL (trim n) st.marker && decide (byteLen st.marker ≤ byteLen (trim n))
        | none => false
      if isBlank line = true ∧ (pfs = true ∨ nife = true) then
        -- blank immediately after the fence opener or before the closer: dropped
        { st with prev := some line }
      else
        { st with res := st.res ++ [line], pe := false, prev := some line }
    else
      { st with res := st.res ++ [line], pe := false, prev := some line }
  else
    -- ordinary body line
    let ilgs := is_list_marker line && (st.prev.isNone || !is_list_marker (st.prev.getD []))
    let r := if (is_heading line = true ∨ ilgs = true) ∧ lastNonBlank st.res = true then
        st.res ++ [blankL] else st.res
    let r := if isBlank line = true then (if st.pe = false then r ++ [line] else r) else r ++ [line]
    let ilge := is_list_marker line && !(match next with | some n => is_list_marker n | none => false)
    let r := if (is_heading line = true ∨ ilge = true) ∧ nextNonBlank next = true then
        r ++ [blankL] else r
    { st with res := r, pe := isBlank line, prev := some line }

/-- The whole loop, one `stepFn` per line with one-line lookahead. -/
def loop : St → List (List Char) → St
  | st, [] => st
  | st, l :: rest => loop (stepFn st l rest.head?) rest

/-- Loop state before the first iteration. -/
def initSt : St := ⟨none, [], false, false, false, []⟩

/-- The line sequence `result` produced for a document. -/
def outLines (content : List Char) : List (List Char) :=
  (loop initSt (linesOf content)).res

/-- `remove_multiple_blank_lines`: run the loop, join with newlines, then
restore the input's trailing-newline flag. -/
def remove_multiple_blank_lines (content : List Char) : List Char :=
  fixTail content (joinLF (outLines content))

/-- Result of one `process_md_file` call, at the text level: the file is
deleted, rewritten with new content, or left untouched. -/
inductive Outcome where
  | deleted
  | modified (newText : List Char)
  | unchanged
  deriving DecidableEq, Repr

/-- `process_md_file`, with the file's content supplied directly.  Returns
`none` exactly when the byte slices at `frontmatter_end` would panic (out
of range or not on a character boundary). -/
def process_md_file (content : List Char) (allow_delete : Bool) : Option Outcome :=
  if (trim content).isEmpty then
    if allow_delete then some .deleted else some .unchanged
  else
    let fmBody : Option (Bool × List Char) :=
      match stripPfx content dashesNl with
      | some stripped =>
        match findSub stripped nlDashesNl with
        | some end_pos =>
          -- frontmatter_end = 4 + end_pos + 5
          match splitAtByte content (4 + end_pos + 5) with
          | some p => some (true, p.2)
          | none => none
        | none => some (false, content)
      | none => some (false, content)
    match fmBody with
    | none => none
    | some fb =>
      if fb.1 = true ∧ (trim fb.2).isEmpty = true then
        if allow_delete then some .deleted else some .unchanged
      else
        let processed := remove_multiple_blank_lines content
        if processed ≠ content then some (.modified processed) else some .unchanged

/-- The `(deleted, modified)` pair returned by `process_md_file`. -/
def process_md_pair (content : List Char) (allow_delete : Bool) : Option (Bool × Bool) :=
  (process_md_file content allow_delete).map fun o =>
    match o with
    | .deleted => (true, false)
    | .modified _ => (false, true)
    | .unchanged => (false, false)

/-- Processing the prefix `xs` of the line list, where `nx` is the line
that follows `xs` (the lookahead used for the last element of `xs`). -/
def runPre : St → List (List Char) → Option (List Char) → St
  | st, [], _ => st
  | st, l :: rest, nx =>
    runPre (stepFn st l (match rest with | [] => nx | r :: _ => some r)) rest nx

/-- Ends with two consecutive newline characters. -/
def endsTwoLF (s : List Char) : Bool := startsWithL s.reverse ['\n', '\n']

/-- The backtick character, U+0060. -/
def btChar : Char := Char.ofNat 96

/-! ### Claim C4: surviving blank runs are inside protected regions

To state where a blank line of the *output* lies, the output line sequence
is re-scanned with the same region rules the loop itself uses (frontmatter
opened by a line trimming to `---` at position 0 and extending to the next
`---` line or to the end when unterminated; fences per the open/close
tests of the loop).  `protLabels` marks each line that is frontmatter or
fence interior content. -/

/-- Region-scanner state: position-0 flag, `in_frontmatter`,
`in_code_fence` and the fence marker. -/
structure SSt where
  first : Bool
  fm : Bool
  fence : Bool
  marker : List Char
  deriving DecidableEq, Repr

/-- One scanner transition; the returned `Bool` labels the line as
protected (frontmatter or fence interior) content. -/
def scanStep (s : SSt) (l : List Char) : Bool × SSt :=
  if s.first = true ∧ trim l = dashes then
    (false, { s with first := false, fm := true })
  else if s.fm = true ∧ trim l = dashes then
    (false, { s with first := false, fm := false })
  else if s.fm = false ∧
      (startsWithL (trim l) btMark = true ∨ startsWithL (trim l) tdMark = true) ∧
      s.fence = false then
    (false,
      { s with
        first := false
        fence := true
        marker := if startsWithL (trim l) btMark = true then btMark else tdMark })
  else if s.fm = false ∧ s.fence = true ∧ startsWithL (trim l) s.marker = true ∧
      byteLen s.marker ≤ byteLen (trim l) then
    (false, { s with first := false, fence := false, marker := [] })
  else
    ((s.fm || s.fence), { s with first := false })

/-- Labels of a line sequence under the scanner. -/
def scanLabels (s : SSt) : List (List Char) → List Bool
  | [] => []
  | l :: rest => (scanStep s l).1 :: scanLabels (scanStep s l).2 rest

/-- Scanner state after a line sequence. -/
def scanState (s : SSt) : List (List Char) → SSt
  | [] => s
  | l :: rest => scanState (scanStep s l).2 rest

/-- Scanner state at the start of a document. -/
def initScan : SSt := ⟨true, false, false, []⟩

/-- Protection labels of a document's line sequence. -/
def protLabels (rs : List (List Char)) : List Bool := scanLabels initScan rs

/-- No two adjacent blank lines unless both are protected content. -/
def GoodAt (rs : List (List Char)) : Prop :=
  ∀ i a b, rs[i]? = some a → rs[i + 1]? = some b → isBlank a = true → isBlank b = true →
    (protLabels rs)[i]? = some true ∧ (protLabels rs)[i + 1]? = some true

/-- A blank final line carries a protected label. -/
def lastBlankLabeled (rs : List (List Char)) : Prop :=
  ∀ t, rs.getLast? = some t → isBlank t = true → (protLabels rs).getLast? = some true

/-- The induction invariant for claim C4, relating the loop state to the
re-scan of the emitted lines, with the lookahead facts justified by the
remaining input. -/
structure Inv (st : St) (rem : List (List Char)) : Prop where
  resPrev : st.res = [] ↔ st.prev = none
  atStart : st.prev = none → st = initSt
  excl : ¬(st.fm = true ∧ st.fence = true)
  peProt : st.fm = true ∨ st.fence = true → st.pe = false
  markerOk : st.fence = true → st.marker = btMark ∨ st.marker = tdMark
  sync : scanState initScan st.res = ⟨st.res.isEmpty, st.fm, st.fence, st.marker⟩
  good : GoodAt st.res
  protLast : st.fm = true ∨ st.fence = true → lastBlankLabeled st.res
  bodyLast : st.fm = false → st.fence = false → st.pe = false →
    ∀ t, st.res.getLast? = some t → isBlank t = true →
      ∃ n, rem.head? = some n ∧ isBlank n = false
  peRes : st.pe = true → st.res ≠ []

/-! ### Basic facts about one loop iteration -/

theorem stepFn_prev (st : St) (l : List Char) (nx : Option (List Char)) :
    (stepFn st l nx).prev = some l := by
  unfold stepFn
  repeat' split
  all_goals dsimp only
  repeat' split
  all_goals rfl

theorem stepFn_res_pfx (st : St) (l : List Char) (nx : Option (List Char)) :
    ∃ e, (stepFn st l nx).res = st.res ++ e := by
  unfold stepFn
  repeat' split
  all_goals dsimp only
  repeat' split
  all_goals first
  | exact ⟨[], (List.append_nil _).symm⟩
  | exact ⟨_, rfl⟩
  | exact ⟨_, List.append_assoc _ _ _⟩
  | exact ⟨_, by rw [List.append_assoc, List.append_assoc]⟩

theorem loop_res_pfx (rem : List (List Char)) (st : St) :
    ∃ C, (loop st rem).res = st.res ++ C := by
  induction rem generalizing st with
  | nil => exact ⟨[], by simp [loop]⟩
  | cons l rest ih =>
    obtain ⟨e, he⟩ := stepFn_res_pfx st l rest.head?
    obtain ⟨C, hC⟩ := ih (stepFn st l rest.head?)
    exact ⟨e ++ C, by simp [loop, hC, he]⟩

theorem loop_append (xs : List (List Char)) (st : St) (ys : List (List Char)) :
    loop st (xs ++ ys) = loop (runPre st xs ys.head?) ys := by
  induction xs generalizing st with
  | nil => rfl
  | cons x xs ih =>
    cases xs with
    | nil => rfl
    | cons r xs' =>
      simpa only [loop, runPre, List.cons_append, List.head?_cons] using
        ih (stepFn st x (some r))

theorem runPre_prev_some (xs : List (List Char)) (st : St) (nx : Option (List Char))
    (h : st.prev ≠ none ∨ xs ≠ []) : (runPre st xs nx).prev ≠ none := by
  induction xs generalizing st with
  | nil =>
    rcases h with h | h
    · exact h
    · exact absurd rfl h
  | cons x xs ih =>
    cases xs with
    | nil =>
      rw [show runPre st [x] nx = stepFn st x nx from rfl, stepFn_prev]
      exact Option.some_ne_none _
    | cons r xs' =>
      rw [show runPre st (x :: r :: xs') nx = runPre (stepFn st x (some r)) (r :: xs') nx from rfl]
      exact ih _ (Or.inl (by rw [stepFn_prev]; exact Option.some_ne_none _))

/-! ### Claim C6: trailing-newline preservation -/

theorem head?_dropWhile_false {α : Type} (p : α → Bool) (l : List α) (a : α)
    (h : (l.dropWhile p).head? = some a) : p a = false := by
  induction l with
  | nil => simp at h
  | cons x xs ih =>
    by_cases hx : p x
    · exact ih (by simpa [List.dropWhile_cons, hx] using h)
    · simp only [List.dropWhile_cons, hx, if_false, List.head?_cons] at h
      cases h
      simpa using hx

theorem endsLF_dropTrailLF (r : List Char) : endsLF (dropTrailLF r) = false := by
  unfold endsLF dropTrailLF
  rw [List.getLast?_reverse]
  cases hh : (r.reverse.dropWhile (· == '\n')).head? with
  | none => rfl
  | some a =>
    have := head?_dropWhile_false (· == '\n') r.reverse a hh
    simpa using this

theorem endsLF_snoc_lf (r : List Char) : endsLF (r ++ ['\n']) = true := by
  simp [endsLF]

/-- Claim C6 (confirmed): for every input, the output of
`remove_multiple_blank_lines` ends with a newline character if and only if
the input does. -/
theorem c6_trailing_newline (content : List Char) :
    endsLF (remove_multiple_blank_lines content) = endsLF content := by
  unfold remove_multiple_blank_lines fixTail
  by_cases h1 : endsLF content <;> by_cases h2 : endsLF (joinLF (outLines content)) <;>
    simp [h1, h2, endsLF_dropTrailLF, endsLF_snoc_lf]

/-! ### Claim C1: an unterminated frontmatter opener protects the whole document -/

theorem stepFn_fmOpen (st : St) (l : List Char) (nx : Option (List Char))
    (h1 : st.prev = none) (h2 : trim l = dashes) :
    stepFn st l nx = { st with fm := true, res := st.res ++ [l], prev := some l } := by
  unfold stepFn
  simp [h1, h2]

theorem stepFn_fmInside (st : St) (l : List Char) (nx : Option (List Char))
    (hfm : st.fm = true) (hfc : st.fence = false) (hnd : trim l ≠ dashes) :
    stepFn st l nx = { st with res := st.res ++ [l], pe := false, prev := some l } := by
  unfold stepFn
  simp [hfm, hfc, hnd]

/-- Once the loop is inside a frontmatter that never closes, every
remaining line is emitted verbatim. -/
theorem loop_fm_verbatim (rem : List (List Char)) (st : St) (hfm : st.fm = true)
    (hfc : st.fence = false) (hnd : ∀ l ∈ rem, trim l ≠ dashes) :
    (loop st rem).res = st.res ++ rem := by
  induction rem generalizing st with
  | nil => simp [loop]
  | cons l rest ih =>
    rw [show loop st (l :: rest) = loop (stepFn st l rest.head?) rest from rfl]
    rw [stepFn_fmInside st l rest.head? hfm hfc (hnd l (List.mem_cons_self l rest))]
    have hstep := ih { st with res := st.res ++ [l], pe := false, prev := some l } hfm hfc
      (fun x hx => hnd x (List.mem_cons_of_mem _ hx))
    rw [hstep]
    simp

theorem splitNl_ne_nil (s : List Char) : splitNl s ≠ [] := by
  cases s with
  | nil => simp [splitNl]
  | cons c cs =>
    unfold splitNl
    split
    · simp
    · split <;> simp

theorem joinLF_cons_head (c : Char) (p : List Char) (ps : List (List Char)) :
    joinLF ((c :: p) :: ps) = c :: joinLF (p :: ps) := by
  cases ps <;> rfl

theorem joinLF_splitNl (s : List Char) : joinLF (splitNl s) = s := by
  induction s with
  | nil => rfl
  | cons c cs ih =>
    by_cases hc : c = '\n'
    · subst hc
      rw [show splitNl ('\n' :: cs) = [] :: splitNl cs from by simp [splitNl]]
      cases h : splitNl cs with
      | nil => exact absurd h (splitNl_ne_nil cs)
      | cons p ps =>
        rw [show joinLF ([] :: p :: ps) = '\n' :: joinLF (p :: ps) from rfl]
        rw [← h, ih]
    · rw [show splitNl (c :: cs) =
          (match splitNl cs with | [] => [[c]] | p :: ps => (c :: p) :: ps) from by
        simp [splitNl, hc]]
      cases h : splitNl cs with
      | nil => exact absurd h (splitNl_ne_nil cs)
      | cons p ps =>
        rw [joinLF_cons_head, ← h, ih]

theorem splitNl_snoc_lf (t : List Char) : splitNl (t ++ ['\n']) = splitNl t ++ [[]] := by
  induction t with
  | nil => rfl
  | cons c t ih =>
    by_cases hc : c = '\n'
    · subst hc
      rw [List.cons_append]
      rw [show splitNl ('\n' :: (t ++ ['\n'])) = [] :: splitNl (t ++ ['\n']) from by simp [splitNl]]
      rw [show splitNl ('\n' :: t) = [] :: splitNl t from by simp [splitNl]]
      rw [ih]
      rfl
    · rw [List.cons_append]
      rw [show splitNl (c :: (t ++ ['\n'])) =
          (match splitNl (t ++ ['\n']) with | [] => [[c]] | p :: ps => (c :: p) :: ps) from by
        simp [splitNl, hc]]
      rw [show splitNl (c :: t) =
          (match splitNl t with | [] => [[c]] | p :: ps => (c :: p) :: ps) from by
        simp [splitNl, hc]]
      rw [ih]
      cases h : splitNl t with
      | nil => exact absurd h (splitNl_ne_nil t)
      | cons p ps => rfl

theorem getLast?_cons_ne {α : Type} (x : α) (L : List α) (h : L ≠ []) :
    (x :: L).getLast? = L.getLast? := by
  cases L with
  | nil => exact absurd rfl h
  | cons b t => exact List.getLast?_cons_cons

theorem splitNl_getLast_ne (s : List Char) (h1 : s ≠ []) (h2 : endsLF s = false) :
    (splitNl s).getLast? ≠ some [] := by
  induction s with
  | nil => exact absurd rfl h1
  | cons c cs ih =>
    cases cs with
    | nil =>
      have hc : ¬ c = '\n' := by simpa [endsLF] using h2
      rw [show splitNl [c] = [[c]] from by simp [splitNl, hc]]
      simp
    | cons d ds =>
      have h2' : endsLF (d :: ds) = false := by
        simpa [endsLF, List.getLast?_cons_cons] using h2
      have ihx := ih (by simp) h2'
      by_cases hc : c = '\n'
      · subst hc
        rw [show splitNl ('\n' :: d :: ds) = [] :: splitNl (d :: ds) from by simp [splitNl]]
        rw [getLast?_cons_ne _ _ (splitNl_ne_nil _)]
        exact ihx
      · rw [show splitNl (c :: d :: ds) =
            (match splitNl (d :: ds) with | [] => [[c]] | p :: ps => (c :: p) :: ps) from by
          simp [splitNl, hc]]
        cases h : splitNl (d :: ds) with
        | nil => exact absurd h (splitNl_ne_nil _)
        | cons p ps =>
          rw [h] at ihx
          cases ps with
          | nil => simp
          | cons q qs =>
            rw [List.getLast?_cons_cons]
            rw [List.getLast?_cons_cons] at ihx
            exact ihx

theorem mem_splitNl (s : List Char) (p : List Char) (hp : p ∈ splitNl s) (a : Char)
    (ha : a ∈ p) : a ∈ s := by
  induction s generalizing p with
  | nil =>
    rw [show splitNl [] = [[]] from rfl] at hp
    simp at hp
    subst hp
    simp at ha
  | cons c cs ih =>
    by_cases hc : c = '\n'
    · subst hc
      rw [show splitNl ('\n' :: cs) = [] :: splitNl cs from by simp [splitNl]] at hp
      rcases List.mem_cons.mp hp with h | h
      · subst h; simp at ha
      · exact List.mem_cons_of_mem _ (ih p h ha)
    · rw [show splitNl (c :: cs) =
          (match splitNl cs with | [] => [[c]] | p :: ps => (c :: p) :: ps) from by
        simp [splitNl, hc]] at hp
      cases h : splitNl cs with
      | nil => exact absurd h (splitNl_ne_nil cs)
      | cons q qs =>
        rw [h] at hp
        rcases List.mem_cons.mp hp with hh | hh
        · subst hh
          rcases List.mem_cons.mp ha with hh | hh
          · subst hh; exact List.mem_cons_self _ _
          · exact List.mem_cons_of_mem _
              (ih q (by rw [h]; exact List.mem_cons_self _ _) hh)
        · exact List.mem_cons_of_mem _
            (ih p (by rw [h]; exact List.mem_cons_of_mem _ hh) ha)

theorem getLast?_mem_of {α : Type} (l : List α) (a : α) (h : l.getLast? = some a) : a ∈ l := by
  obtain ⟨hne, rfl⟩ := List.mem_getLast?_eq_getLast (l := l) (x := a) (Option.mem_def.mpr h)
  exact List.getLast_mem hne

theorem stripCR_id (p : List Char) (h : ∀ a ∈ p, a ≠ '\r') : stripCR p = p := by
  unfold stripCR
  cases hl : p.getLast? with
  | none => rfl
  | some c =>
    have hm : c ∈ p := getLast?_mem_of p c hl
    simp [h c hm]

theorem linesOf_noCR (s : List Char) (hcr : ∀ a ∈ s, a ≠ '\r') :
    linesOf s =
      (if (splitNl s).getLast? = some [] then (splitNl s).dropLast else splitNl s) := by
  have hid : ∀ p ∈ splitNl s, stripCR p = p := fun p hp =>
    stripCR_id p (fun a ha => hcr a (mem_splitNl s p hp a ha))
  have hmap : List.map stripCR (splitNl s) = splitNl s := by
    rw [List.map_congr_left hid]
    exact List.map_id _
  unfold linesOf
  dsimp only
  split
  · rw [List.map_dropLast, hmap]
  · exact hmap

theorem startsWithL_single_lf (r : List Char) :
    startsWithL r ['\n'] = (r.head? == some '\n') := by
  cases r <;> simp [startsWithL]

theorem endsTwoLF_snoc (L : List Char) : endsTwoLF (L ++ ['\n']) = endsLF L := by
  unfold endsTwoLF endsLF
  rw [List.reverse_append]
  rw [show ((['\n'] : List Char).reverse ++ L.reverse) = '\n' :: L.reverse from rfl]
  rw [show startsWithL ('\n' :: L.reverse) ['\n', '\n'] = startsWithL L.reverse ['\n'] from by
    simp [startsWithL]]
  rw [startsWithL_single_lf, ← List.getLast?_reverse]
  simp

/-- Rejoining the split lines restores the document, provided it has no
carriage returns and does not end in two newlines (the two situations in
which `lines` + `join("\n")` cannot reconstruct the original bytes). -/
theorem rejoin_eq (s : List Char) (hcr : ∀ a ∈ s, a ≠ '\r') (h2 : endsTwoLF s = false) :
    fixTail s (joinLF (linesOf s)) = s := by
  by_cases hs : s = []
  · subst hs; rfl
  rw [linesOf_noCR s hcr]
  by_cases he : endsLF s = true
  · -- s = L ++ ['\n']
    rcases List.eq_nil_or_concat s with h | ⟨L, b, hL⟩
    · exact absurd h hs
    have hLb : s = L ++ [b] := by simpa using hL
    have hb : b = '\n' := by
      have := he
      rw [hLb] at this
      unfold endsLF at this
      rw [List.getLast?_concat] at this
      simpa using this
    subst hb
    rw [hLb]
    rw [splitNl_snoc_lf, List.getLast?_concat]
    rw [if_pos rfl, List.dropLast_concat, joinLF_splitNl]
    have hLe : endsLF L = false := by
      rw [hLb, endsTwoLF_snoc] at h2
      exact h2
    unfold fixTail
    rw [show endsLF (L ++ ['\n']) = true from by simp [endsLF]]
    rw [hLe]
    simp
  · have he' : endsLF s = false := by simpa using he
    rw [if_neg (splitNl_getLast_ne s hs he'), joinLF_splitNl]
    unfold fixTail
    rw [he']
    simp

/-- Claim C1 (corrected): when line 0 trims to `---` and no later line
trims to `---`, `remove_multiple_blank_lines` stays in frontmatter mode
to the end and emits every line verbatim — no blank-line collapsing and no
heading/list separators.  In particular the output equals the input
whenever the input has no carriage returns and does not end in two
newlines. -/
theorem c1_unterminated_frontmatter_verbatim (c : List Char) (l0 : List Char)
    (rest : List (List Char)) (hsplit : linesOf c = l0 :: rest) (h0 : trim l0 = dashes)
    (hrest : ∀ l ∈ rest, trim l ≠ dashes) (hcr : ∀ a ∈ c, a ≠ '\r')
    (h2 : endsTwoLF c = false) :
    outLines c = linesOf c ∧ remove_multiple_blank_lines c = c := by
  have hout : outLines c = linesOf c := by
    unfold outLines
    rw [hsplit]
    rw [show loop initSt (l0 :: rest) = loop (stepFn initSt l0 rest.head?) rest from rfl]
    rw [stepFn_fmOpen initSt l0 rest.head? rfl h0]
    rw [loop_fm_verbatim rest _ rfl rfl hrest]
    simp [initSt]
  refine ⟨hout, ?_⟩
  unfold remove_multiple_blank_lines
  rw [hout]
  exact rejoin_eq c hcr h2

/-- Counterexample to claim C1 as stated: with an unterminated opening
`---`, the body rules are *not* applied.  With no `---` opener the same
tail collapses its blank run, but with the opener the whole document is
returned unchanged, triple blank line included. -/
theorem c1_counterexample :
    remove_multiple_blank_lines (("---\nA\n\n\n\nB").data) = ("---\nA\n\n\n\nB").data ∧
    remove_multiple_blank_lines (("A\n\n\n\nB").data) = ("A\n\nB").data ∧
    remove_multiple_blank_lines (("---\nA\n\n\n\nB").data) ≠ ("---\nA\n\nB").data := by
  exact ⟨by decide, by decide, by decide⟩

/-- Witness for `c1_unterminated_frontmatter_verbatim` at a concrete input. -/
theorem c1_witness :
    outLines (("---\nA\n\n\n\nB").data) = linesOf (("---\nA\n\n\n\nB").data) ∧
    remove_multiple_blank_lines (("---\nA\n\n\n\nB").data) = ("---\nA\n\n\n\nB").data :=
  c1_unterminated_frontmatter_verbatim (("---\nA\n\n\n\nB").data) (("---").data)
    [("A").data, [], [], [], ("B").data] (by decide) (by decide) (by decide) (by decide)
    (by decide)

/-! ### Claim C3: idempotence fails on the code -/

/-- Claim C3 (code bug): the Line Normalizer is not idempotent.  On
`"```\n\n\nx\n```"` one application yields `"```\n\nx\n```"` (the blank
right after the fence opener is dropped), and a second application drops
one more blank, yielding `"```\nx\n```"`, so applying the normalizer twice
differs from applying it once. -/
theorem c3_not_idempotent :
    remove_multiple_blank_lines (("```\n\n\nx\n```").data) = ("```\n\nx\n```").data ∧
    remove_multiple_blank_lines
        (remove_multiple_blank_lines (("```\n\n\nx\n```").data)) = ("```\nx\n```").data ∧
    remove_multiple_blank_lines
        (remove_multiple_blank_lines (("```\n\n\nx\n```").data)) ≠
      remove_multiple_blank_lines (("```\n\n\nx\n```").data) := by
  refine ⟨by decide, by decide, by decide⟩

/-! ### Claims C5, C9, C10: the per-file driver -/

theorem startsWithL_ex (pat : List Char) (s : List Char) (h : startsWithL s pat = true) :
    ∃ y, s = pat ++ y := by
  induction pat generalizing s with
  | nil => exact ⟨s, rfl⟩
  | cons p ps ih =>
    cases s with
    | nil => simp [startsWithL] at h
    | cons c cs =>
      rw [show startsWithL (c :: cs) (p :: ps) = ((c == p) && startsWithL cs ps) from rfl] at h
      rw [Bool.and_eq_true] at h
      obtain ⟨y, hy⟩ := ih cs h.2
      exact ⟨y, by rw [hy]; simp [eq_of_beq h.1]⟩

theorem utf8Size_pos (c : Char) : 0 < utf8Size c := by
  unfold utf8Size
  repeat' split
  all_goals omega

theorem byteLen_append (u v : List Char) : byteLen (u ++ v) = byteLen u + byteLen v := by
  simp [byteLen]

theorem findSub_decomp (s pat : List Char) (b : Nat) (h : findSub s pat = some b) :
    ∃ x y, s = x ++ pat ++ y ∧ byteLen x = b := by
  induction s generalizing b with
  | nil =>
    unfold findSub at h
    split at h
    · obtain ⟨y, hy⟩ := startsWithL_ex pat [] (by assumption)
      have hb : b = 0 := by simpa using h.symm
      exact ⟨[], y, by simpa using hy, by simp [byteLen, hb]⟩
    · simp at h
  | cons c cs ih =>
    unfold findSub at h
    split at h
    · obtain ⟨y, hy⟩ := startsWithL_ex pat (c :: cs) (by assumption)
      have hb : b = 0 := by simpa using h.symm
      exact ⟨[], y, by simpa using hy, by simp [byteLen, hb]⟩
    · rw [Option.map_eq_some'] at h
      obtain ⟨b', hb', rfl⟩ := h
      obtain ⟨x, y, hxy, hx⟩ := ih b' hb'
      refine ⟨c :: x, y, by rw [List.cons_append, List.cons_append, ← hxy], ?_⟩
      rw [show byteLen (c :: x) = utf8Size c + byteLen x from by simp [byteLen]]
      omega

theorem splitAtByte_append (u v : List Char) :
    splitAtByte (u ++ v) (byteLen u) = some (u, v) := by
  induction u with
  | nil =>
    rw [show byteLen ([] : List Char) = 0 from rfl]
    unfold splitAtByte
    simp
  | cons c u' ih =>
    have hp := utf8Size_pos c
    have hlen : byteLen (c :: u') = utf8Size c + byteLen u' := by simp [byteLen]
    rw [show (c :: u') ++ v = c :: (u' ++ v) from rfl]
    unfold splitAtByte
    rw [if_neg (by omega)]
    dsimp only
    rw [if_pos (by omega)]
    rw [show byteLen (c :: u') - utf8Size c = byteLen u' from by omega]
    rw [ih]
    rfl

theorem stripPfx_decomp (s pat t : List Char) (h : stripPfx s pat = some t) :
    s = pat ++ t := by
  unfold stripPfx at h
  split at h
  · obtain ⟨y, hy⟩ := startsWithL_ex pat s (by assumption)
    have : t = y := by
      have := h
      rw [hy, List.drop_left] at this
      simpa using this.symm
    rw [this, hy]
  · simp at h

/-! ### Facts about the line classifiers -/

theorem btMark_cons : btMark = btChar :: btChar :: btChar :: [] := by decide

theorem tdMark_cons : tdMark = '~' :: '~' :: '~' :: [] := rfl

theorem dashes_cons : dashes = '-' :: '-' :: '-' :: [] := rfl

theorem hashMark_cons : hashMark = '#' :: [] := rfl

theorem dashSp_cons : dashSp = '-' :: ' ' :: [] := rfl

theorem starSp_cons : starSp = '*' :: ' ' :: [] := rfl

theorem plusSp_cons : plusSp = '+' :: ' ' :: [] := rfl

theorem startsWithL_cons_false (c : Char) (ts : List Char) (d : Char) (ds : List Char)
    (h : (c == d) = false) : startsWithL (c :: ts) (d :: ds) = false := by
  simp [startsWithL, h]

theorem digit_beq_false (c : Char) (hdig : c.isDigit = true) (d : Char)
    (hd : d.isDigit = false) : (c == d) = false := by
  cases hcb : c == d
  · rfl
  · rw [eq_of_beq hcb] at hdig
    rw [hdig] at hd
    cases hd

/-- Common consequences of knowing the head character of the trimmed line. -/
theorem facts_of_head (l : List Char) (c : Char) (ts : List Char) (hts : trim l = c :: ts)
    (hbt : (c == btChar) = false) (htd : (c == '~') = false) :
    startsWithL (trim l) btMark = false ∧ startsWithL (trim l) tdMark = false ∧
      isBlank l = false := by
  refine ⟨?_, ?_, ?_⟩
  · rw [hts, btMark_cons]
    exact startsWithL_cons_false _ _ _ _ hbt
  · rw [hts, tdMark_cons]
    exact startsWithL_cons_false _ _ _ _ htd
  · simp [isBlank, hts]

theorem heading_false_of_head (l : List Char) (c : Char) (ts : List Char)
    (hts : trim l = c :: ts) (hhash : (c == '#') = false) : is_heading l = false := by
  simp [is_heading, hts, hashMark_cons, startsWithL, hhash]

theorem heading_facts (l : List Char) (hh : is_heading l = true) :
    trim l ≠ dashes ∧ startsWithL (trim l) btMark = false ∧
      startsWithL (trim l) tdMark = false ∧ isBlank l = false := by
  have hsw : startsWithL (trim l) hashMark = true := by
    by_contra hneg
    have hf : startsWithL (trim l) hashMark = false := by
      cases hx : startsWithL (trim l) hashMark
      · rfl
      · exact absurd hx hneg
    unfold is_heading at hh
    dsimp only at hh
    rw [hf] at hh
    simp at hh
  obtain ⟨ts, hts⟩ := startsWithL_ex hashMark (trim l) hsw
  rw [hashMark_cons] at hts
  rw [show ('#' :: []) ++ ts = '#' :: ts from rfl] at hts
  obtain ⟨f1, f2, f3⟩ := facts_of_head l '#' ts hts (by decide) (by decide)
  refine ⟨?_, f1, f2, f3⟩
  · intro hd
    rw [hd, dashes_cons] at hts
    injection hts with h1 _
    exact absurd h1 (by decide)

theorem list_marker_facts (l : List Char) (h : is_list_marker l = true) :
    trim l ≠ dashes ∧ startsWithL (trim l) btMark = false ∧
      startsWithL (trim l) tdMark = false ∧ isBlank l = false ∧ is_heading l = false := by
  unfold is_list_marker at h
  have hcase : startsWithL (trim l) dashSp = true ∨ startsWithL (trim l) starSp = true ∨
      startsWithL (trim l) plusSp = true ∨
      ((match (trim l).head? with | some c => c.isDigit | none => false) = true ∧
        (findSub (trim l) dotSp).isSome = true) := by
    have h' := h
    simp only [Bool.or_eq_true, Bool.and_eq_true] at h'
    tauto
  rcases hcase with hc | hc | hc | hc
  · obtain ⟨ts, hts⟩ := startsWithL_ex dashSp (trim l) hc
    rw [dashSp_cons] at hts
    rw [show ('-' :: ' ' :: []) ++ ts = '-' :: ' ' :: ts from rfl] at hts
    obtain ⟨f1, f2, f3⟩ := facts_of_head l '-' (' ' :: ts) hts (by decide) (by decide)
    refine ⟨?_, f1, f2, f3, heading_false_of_head l '-' _ hts (by decide)⟩
    · intro hd
      rw [hd, dashes_cons] at hts
      injection hts with _ h2
      injection h2 with h3 _
      exact absurd h3 (by decide)
  · obtain ⟨ts, hts⟩ := startsWithL_ex starSp (trim l) hc
    rw [starSp_cons] at hts
    rw [show ('*' :: ' ' :: []) ++ ts = '*' :: ' ' :: ts from rfl] at hts
    obtain ⟨f1, f2, f3⟩ := facts_of_head l '*' (' ' :: ts) hts (by decide) (by decide)
    refine ⟨?_, f1, f2, f3, heading_false_of_head l '*' _ hts (by decide)⟩
    · intro hd
      rw [hd, dashes_cons] at hts
      injection hts with h1 _
      exact absurd h1 (by decide)
  · obtain ⟨ts, hts⟩ := startsWithL_ex plusSp (trim l) hc
    rw [plusSp_cons] at hts
    rw [show ('+' :: ' ' :: []) ++ ts = '+' :: ' ' :: ts from rfl] at hts
    obtain ⟨f1, f2, f3⟩ := facts_of_head l '+' (' ' :: ts) hts (by decide) (by decide)
    refine ⟨?_, f1, f2, f3, heading_false_of_head l '+' _ hts (by decide)⟩
    · intro hd
      rw [hd, dashes_cons] at hts
      injection hts with h1 _
      exact absurd h1 (by decide)
  · obtain ⟨hdigit, -⟩ := hc
    obtain ⟨c, ts, ht⟩ : ∃ c ts, trim l = c :: ts := by
      cases htl : trim l with
      | nil => rw [htl] at hdigit; simp at hdigit
      | cons a b => exact ⟨a, b, rfl⟩
    have hdig : c.isDigit = true := by
      rw [ht] at hdigit
      simpa using hdigit
    obtain ⟨f1, f2, f3⟩ := facts_of_head l c ts ht
      (digit_beq_false c hdig btChar (by decide))
      (digit_beq_false c hdig '~' (by decide))
    refine ⟨?_, f1, f2, f3,
      heading_false_of_head l c ts ht (digit_beq_false c hdig '#' (by decide))⟩
    · intro hd
      rw [ht] at hd
      rw [dashes_cons] at hd
      injection hd with h1 _
      rw [h1] at hdig
      exact absurd hdig (by decide)

/-! ### Branch lemmas for `stepFn` -/

theorem stepFn_heading (st : St) (l : List Char) (nx : Option (List Char))
    (hfm : st.fm = false) (hfc : st.fence = false) (hh : is_heading l = true) :
    stepFn st l nx =
      { st with
        res := ((if lastNonBlank st.res = true then st.res ++ [blankL] else st.res) ++ [l]) ++
          (if nextNonBlank nx = true then [blankL] else []),
        pe := false, prev := some l } := by
  obtain ⟨hnd, hbt, htd, hnb⟩ := heading_facts l hh
  unfold stepFn
  rw [if_neg (by simp [hnd])]
  rw [if_neg (by simp [hfm])]
  rw [if_neg (by simp [hbt, htd])]
  rw [if_neg (by simp [hfc])]
  rw [if_neg (by simp [hfm, hfc])]
  dsimp only
  simp only [hh, hnb, Bool.false_eq_true, true_or, true_and, if_false, eq_self_iff_true,
    if_true]
  split <;> split <;> simp

theorem stepFn_listItem (st : St) (l : List Char) (nx : Option (List Char))
    (hfm : st.fm = false) (hfc : st.fence = false) (hl : is_list_marker l = true) :
    stepFn st l nx =
      { st with
        res := ((if ((st.prev.isNone || !is_list_marker (st.prev.getD [])) = true ∧
                lastNonBlank st.res = true) then st.res ++ [blankL] else st.res) ++ [l]) ++
          (if ((match nx with | some n => is_list_marker n | none => false) = false ∧
              nextNonBlank nx = true) then [blankL] else []),
        pe := false, prev := some l } := by
  obtain ⟨hnd, hbt, htd, hnb, hnh⟩ := list_marker_facts l hl
  unfold stepFn
  rw [if_neg (by simp [hnd])]
  rw [if_neg (by simp [hfm])]
  rw [if_neg (by simp [hbt, htd])]
  rw [if_neg (by simp [hfc])]
  rw [if_neg (by simp [hfm, hfc])]
  dsimp only
  simp only [hl, hnh, hnb, Bool.false_eq_true, false_or, Bool.true_and, Bool.not_eq_true',
    true_and, if_false, eq_self_iff_true, if_true, Bool.not_eq_eq_eq_not, Bool.not_true]
  split <;> split <;> simp

theorem stepFn_fenceInside (st : St) (l : List Char) (nx : Option (List Char))
    (hprev : st.prev ≠ none) (hfm : st.fm = false) (hfc : st.fence = true)
    (hncl : ¬(startsWithL (trim l) st.marker = true ∧ byteLen st.marker ≤ byteLen (trim l))) :
    stepFn st l nx =
      (if isBlank l = true ∧
          ((match st.prev with
            | some p => (startsWithL (trim p) btMark || startsWithL (trim p) tdMark) && !st.fm
            | none => false) = true ∨
          (match nx with
            | some n => startsWithL (trim n) st.marker &&
                decide (byteLen st.marker ≤ byteLen (trim n))
            | none => false) = true)
        then { st with prev := some l }
        else { st with res := st.res ++ [l], pe := false, prev := some l }) := by
  unfold stepFn
  rw [if_neg (by simp [hprev])]
  rw [if_neg (by simp [hfm])]
  rw [if_neg (by simp [hfc])]
  rw [if_neg (by simpa [hfm, hfc] using hncl)]
  rw [if_pos (by simp [hfc])]
  rw [if_pos hfc]

/-! ### Claim C7: spacing around headings -/

/-- Claim C7 (confirmed): for a heading line processed in the body
(outside frontmatter and fences), the output contains the heading
preceded by one synthetic blank exactly when the previously emitted line
exists and is non-blank (so the heading is always preceded by a blank
line or starts the output), and immediately followed by a synthetic blank
exactly when the next input line exists and is non-blank; and the spec's
example holds. -/
theorem c7_heading_spacing :
    (∀ (c : List Char) (pre : List (List Char)) (h : List Char) (rest : List (List Char)),
      linesOf c = pre ++ h :: rest →
      (runPre initSt pre (some h)).fm = false →
      (runPre initSt pre (some h)).fence = false →
      is_heading h = true →
      ∃ A B, outLines c = A ++ [h] ++ B ∧
        A = (runPre initSt pre (some h)).res ++
          (if lastNonBlank (runPre initSt pre (some h)).res = true then [blankL] else []) ∧
        (A = [] ∨ ∃ bl, A.getLast? = some bl ∧ isBlank bl = true) ∧
        (nextNonBlank rest.head? = true → B.head? = some blankL)) ∧
    remove_multiple_blank_lines (("Text\n# Heading\nMore text").data) =
      ("Text\n\n# Heading\n\nMore text").data := by
  constructor
  · intro c pre h rest hsplit hfm hfc hh
    unfold outLines
    rw [hsplit, loop_append pre initSt (h :: rest)]
    rw [show (h :: rest).head? = some h from rfl]
    rw [show loop (runPre initSt pre (some h)) (h :: rest) =
        loop (stepFn (runPre initSt pre (some h)) h rest.head?) rest from rfl]
    rw [stepFn_heading _ h rest.head? hfm hfc hh]
    obtain ⟨C, hC⟩ := loop_res_pfx rest _
    rw [hC]
    dsimp only
    refine ⟨(runPre initSt pre (some h)).res ++
        (if lastNonBlank (runPre initSt pre (some h)).res = true then [blankL] else []),
      (if nextNonBlank rest.head? = true then [blankL] else []) ++ C, ?_, rfl, ?_, ?_⟩
    · split <;> simp
    · by_cases hl : lastNonBlank (runPre initSt pre (some h)).res = true
      · rw [if_pos hl]
        exact Or.inr ⟨blankL, by simp, by decide⟩
      · rw [if_neg hl]
        have hl' : lastNonBlank (runPre initSt pre (some h)).res = false := by
          cases hx : lastNonBlank (runPre initSt pre (some h)).res
          · rfl
          · exact absurd hx hl
        cases hres : (runPre initSt pre (some h)).res with
        | nil => exact Or.inl (by simp)
        | cons a as =>
          refine Or.inr ?_
          cases hg : (a :: as).getLast? with
          | none => simp at hg
          | some t =>
            refine ⟨t, by simp [hg], ?_⟩
            unfold lastNonBlank at hl'
            rw [hres] at hl'
            simp only [hg] at hl'
            simpa using hl'
    · intro hnx
      rw [if_pos hnx]
      rfl
  · decide

/-- Witness for `c7_heading_spacing` at a concrete input. -/
theorem c7_witness :
    ∃ A B, outLines (("Text\n# Heading\nMore text").data) =
        A ++ [("# Heading").data] ++ B ∧
      A = (runPre initSt [("Text").data] (some (("# Heading").data))).res ++
        (if lastNonBlank (runPre initSt [("Text").data] (some (("# Heading").data))).res = true
          then [blankL] else []) ∧
      (A = [] ∨ ∃ bl, A.getLast? = some bl ∧ isBlank bl = true) ∧
      (nextNonBlank ([("More text").data] : List (List Char)).head? = true →
        B.head? = some blankL) :=
  c7_heading_spacing.1 (("Text\n# Heading\nMore text").data) [("Text").data]
    (("# Heading").data) [("More text").data] (by decide) (by decide) (by decide) (by decide)

/-! ### Claim C8: one separator pair around a whole list group -/

/-- Processing a run of consecutive list-item lines whose predecessor is
itself a list item emits exactly the items, with a single trailing blank
separator when the line after the run exists and is non-blank. -/
theorem items_run (G : List (List Char)) (st : St) (nx : Option (List Char))
    (hG : ∀ g ∈ G, is_list_marker g = true)
    (hfm : st.fm = false) (hfc : st.fence = false)
    (hprev : ∃ p, st.prev = some p ∧ is_list_marker p = true)
    (hnx : (match nx with | some n => is_list_marker n | none => false) = false) :
    (runPre st G nx).res = (st.res ++ G) ++
      (if (G ≠ [] ∧ nextNonBlank nx = true) then [blankL] else []) := by
  induction G generalizing st with
  | nil => simp [runPre]
  | cons g G' ih =>
    obtain ⟨p, hp, hpl⟩ := hprev
    have hg : is_list_marker g = true := hG g (List.mem_cons_self _ _)
    cases G' with
    | nil =>
      rw [show runPre st [g] nx = stepFn st g nx from rfl]
      rw [stepFn_listItem st g nx hfm hfc hg]
      dsimp only
      rw [if_neg (by simp [hp, hpl])]
      simp [hnx]
    | cons r G'' =>
      rw [show runPre st (g :: r :: G'') nx = runPre (stepFn st g (some r)) (r :: G'') nx
        from rfl]
      rw [stepFn_listItem st g (some r) hfm hfc hg]
      dsimp only
      rw [if_neg (by simp [hp, hpl])]
      rw [if_neg (by simp [hG r (by simp)])]
      rw [ih { st with res := (st.res ++ [g]) ++ [], pe := false, prev := some g }
        (fun x hx => hG x (List.mem_cons_of_mem _ hx)) hfm hfc ⟨g, rfl, hg⟩]
      simp

/-- Processing a whole list group (first item preceded by a non-list line
or the document start, then a run of items) from a body-mode state. -/
theorem group_run (g0 : List Char) (G : List (List Char)) (st : St) (nx : Option (List Char))
    (hfm : st.fm = false) (hfc : st.fence = false) (hg0 : is_list_marker g0 = true)
    (hG : ∀ g ∈ G, is_list_marker g = true)
    (hprev : (match st.prev with | some p => is_list_marker p | none => false) = false)
    (hnx : (match nx with | some n => is_list_marker n | none => false) = false) :
    (runPre st (g0 :: G) nx).res =
      (st.res ++ (if lastNonBlank st.res = true then [blankL] else [])) ++
        ((g0 :: G) ++ (if nextNonBlank nx = true then [blankL] else [])) := by
  have hbefore : (st.prev.isNone || !is_list_marker (st.prev.getD [])) = true := by
    cases hp : st.prev with
    | none => simp
    | some p =>
      rw [hp] at hprev
      simp only at hprev
      simp [hprev]
  cases G with
  | nil =>
    rw [show runPre st [g0] nx = stepFn st g0 nx from rfl]
    rw [stepFn_listItem st g0 nx hfm hfc hg0]
    dsimp only
    simp only [hbefore, true_and, hnx, eq_self_iff_true]
    split <;> split <;> simp
  | cons r G'' =>
    rw [show runPre st (g0 :: r :: G'') nx = runPre (stepFn st g0 (some r)) (r :: G'') nx
      from rfl]
    rw [stepFn_listItem st g0 (some r) hfm hfc hg0]
    dsimp only
    simp only [hbefore, true_and]
    have hafter : ¬(((match some r with
        | some n => is_list_marker n | none => false) = false) ∧
        nextNonBlank (some r) = true) := by
      simp [hG r (by simp)]
    rw [if_neg hafter]
    rw [items_run (r :: G'') { st with
        res := ((if lastNonBlank st.res = true then st.res ++ [blankL] else st.res) ++ [g0]) ++ [],
        pe := false, prev := some g0 }
      nx (fun x hx => hG x hx) hfm hfc ⟨g0, rfl, hg0⟩ hnx]
    simp only [ne_eq, List.cons_ne_nil, not_false_eq_true, true_and]
    split <;> split <;> simp

/-- Claim C8 (confirmed): for a maximal run of consecutive list-item lines
processed in the body, the output contains the run contiguously with no
separator between items; one synthetic blank precedes the run exactly when
the previously emitted line exists and is non-blank, and one follows it
exactly when the next input line exists and is non-blank; and the spec's
example holds. -/
theorem c8_list_group_spacing :
    (∀ (c : List Char) (pre : List (List Char)) (g0 : List Char)
        (G post : List (List Char)),
      linesOf c = pre ++ (g0 :: G) ++ post →
      (runPre initSt pre (some g0)).fm = false →
      (runPre initSt pre (some g0)).fence = false →
      is_list_marker g0 = true →
      (∀ g ∈ G, is_list_marker g = true) →
      (match (runPre initSt pre (some g0)).prev with
        | some p => is_list_marker p | none => false) = false →
      (match post.head? with | some n => is_list_marker n | none => false) = false →
      ∃ B, outLines c =
        ((runPre initSt pre (some g0)).res ++
          (if lastNonBlank (runPre initSt pre (some g0)).res = true then [blankL] else [])) ++
        ((g0 :: G) ++
          ((if nextNonBlank post.head? = true then [blankL] else []) ++ B))) ∧
    remove_multiple_blank_lines (("Text\n- A\n- B\n- C\nText").data) =
      ("Text\n\n- A\n- B\n- C\n\nText").data := by
  constructor
  · intro c pre g0 G post hsplit hfm hfc hg0 hG hprev hpost
    unfold outLines
    rw [hsplit]
    rw [show (pre ++ (g0 :: G) ++ post) = pre ++ ((g0 :: G) ++ post) from by simp]
    rw [loop_append pre initSt ((g0 :: G) ++ post)]
    rw [show ((g0 :: G) ++ post).head? = some g0 from rfl]
    rw [loop_append (g0 :: G) (runPre initSt pre (some g0)) post]
    obtain ⟨C, hC⟩ :=
      loop_res_pfx post (runPre (runPre initSt pre (some g0)) (g0 :: G) post.head?)
    rw [hC]
    rw [group_run g0 G (runPre initSt pre (some g0)) post.head? hfm hfc hg0 hG hprev hpost]
    refine ⟨C, ?_⟩
    simp
  · decide

/-- Witness for `c8_list_group_spacing` at a concrete input. -/
theorem c8_witness :
    ∃ B, outLines (("Text\n- A\n- B\n- C\nText").data) =
      ((runPre initSt [("Text").data] (some (("- A").data))).res ++
        (if lastNonBlank (runPre initSt [("Text").data] (some (("- A").data))).res = true
          then [blankL] else [])) ++
      (((("- A").data) :: [("- B").data, ("- C").data]) ++
        ((if nextNonBlank ([("Text").data] : List (List Char)).head? = true
          then [blankL] else []) ++ B)) :=
  c8_list_group_spacing.1 (("Text\n- A\n- B\n- C\nText").data) [("Text").data]
    (("- A").data) [("- B").data, ("- C").data] [("Text").data]
    (by decide) (by decide) (by decide) (by decide) (by decide) (by decide) (by decide)

/-! ### Claim C2: blank-line handling inside a fence -/

/-- Claim C2 (corrected): a line inside an open fence that does not close
it is emitted verbatim with no collapsing, except that a blank line is
dropped exactly when the previous input line *looks like a fence
delimiter* (its trimmed form starts with ``` or ~~~) or the next input
line closes the fence; and the spec's boundary-trim example holds. -/
theorem c2_fence_interior :
    (∀ (c : List Char) (pre : List (List Char)) (l : List Char) (rest : List (List Char)),
      linesOf c = pre ++ l :: rest →
      (runPre initSt pre (some l)).fence = true →
      (runPre initSt pre (some l)).fm = false →
      ¬(startsWithL (trim l) (runPre initSt pre (some l)).marker = true ∧
        byteLen (runPre initSt pre (some l)).marker ≤ byteLen (trim l)) →
      ∃ B, outLines c =
        (runPre initSt pre (some l)).res ++
        ((if isBlank l = true ∧
            ((match (runPre initSt pre (some l)).prev with
              | some p => (startsWithL (trim p) btMark || startsWithL (trim p) tdMark) &&
                  !(runPre initSt pre (some l)).fm
              | none => false) = true ∨
            (match rest.head? with
              | some n => startsWithL (trim n) (runPre initSt pre (some l)).marker &&
                  decide (byteLen (runPre initSt pre (some l)).marker ≤ byteLen (trim n))
              | none => false) = true)
          then [] else [l]) ++ B)) ∧
    remove_multiple_blank_lines (("Text\n```\n\ncode line\n\n```\nText").data) =
      ("Text\n\n```\ncode line\n```\n\nText").data := by
  constructor
  · intro c pre l rest hsplit hfc hfm hncl
    have hprev : (runPre initSt pre (some l)).prev ≠ none := by
      cases hpre : pre with
      | nil =>
        rw [hpre] at hfc
        simp [runPre, initSt] at hfc
      | cons a as =>
        exact runPre_prev_some _ _ _ (Or.inr (by simp))
    unfold outLines
    rw [hsplit, loop_append pre initSt (l :: rest)]
    rw [show (l :: rest).head? = some l from rfl]
    rw [show loop (runPre initSt pre (some l)) (l :: rest) =
        loop (stepFn (runPre initSt pre (some l)) l rest.head?) rest from rfl]
    rw [stepFn_fenceInside _ l rest.head? hprev hfm hfc hncl]
    split
    · rename_i hcond
      obtain ⟨C, hC⟩ :=
        loop_res_pfx rest { (runPre initSt pre (some l)) with prev := some l }
      rw [hC]
      exact ⟨C, by simp⟩
    · rename_i hcond
      obtain ⟨C, hC⟩ :=
        loop_res_pfx rest { (runPre initSt pre (some l)) with
          res := (runPre initSt pre (some l)).res ++ [l], pe := false, prev := some l }
      rw [hC]
      exact ⟨C, by simp⟩
  · decide

/-- Counterexample to claim C2 as stated: in the fence of
`"```\n~~~\n\nx\n```"` the blank line neither immediately follows the
fence's opening delimiter (the line before it is the interior line `~~~`)
nor immediately precedes its closing delimiter (the next line is `x`), yet
the normalizer drops it. -/
theorem c2_counterexample :
    remove_multiple_blank_lines (("```\n~~~\n\nx\n```").data) = ("```\n~~~\nx\n```").data ∧
    remove_multiple_blank_lines (("```\n~~~\n\nx\n```").data) ≠ ("```\n~~~\n\nx\n```").data := by
  exact ⟨by decide, by decide⟩

/-- Witness for `c2_fence_interior` at a concrete input: the blank line
right after the opener of the fence in `"Text\n```\n\ncode line\n\n```\nText"`. -/
theorem c2_witness :
    ∃ B, outLines (("Text\n```\n\ncode line\n\n```\nText").data) =
      (runPre initSt [("Text").data, ("```").data] (some [])).res ++
      ((if isBlank [] = true ∧
          ((match (runPre initSt [("Text").data, ("```").data] (some [])).prev with
            | some p => (startsWithL (trim p) btMark || startsWithL (trim p) tdMark) &&
                !(runPre initSt [("Text").data, ("```").data] (some [])).fm
            | none => false) = true ∨
          (match ([("code line").data, [], ("```").data, ("Text").data] :
              List (List Char)).head? with
            | some n => startsWithL (trim n)
                  (runPre initSt [("Text").data, ("```").data] (some [])).marker &&
                decide (byteLen (runPre initSt [("Text").data, ("```").data]
                    (some [])).marker ≤ byteLen (trim n))
            | none => false) = true)
        then [] else [([] : List Char)]) ++ B) :=
  c2_fence_interior.1 (("Text\n```\n\ncode line\n\n```\nText").data)
    [("Text").data, ("```").data] [] [("code line").data, [], ("```").data, ("Text").data]
    (by decide) (by decide) (by decide) (by decide)

theorem scanLabels_append (s : SSt) (xs ys : List (List Char)) :
    scanLabels s (xs ++ ys) = scanLabels s xs ++ scanLabels (scanState s xs) ys := by
  induction xs generalizing s with
  | nil => rfl
  | cons x xs ih => simp only [List.cons_append, scanLabels, scanState, List.append_eq, ih]

theorem scanState_append (s : SSt) (xs ys : List (List Char)) :
    scanState s (xs ++ ys) = scanState (scanState s xs) ys := by
  induction xs generalizing s with
  | nil => rfl
  | cons x xs ih => simp only [List.cons_append, scanState, List.append_eq, ih]

theorem scanLabels_length (s : SSt) (rs : List (List Char)) :
    (scanLabels s rs).length = rs.length := by
  induction rs generalizing s with
  | nil => rfl
  | cons x xs ih => simp [scanLabels, ih]

theorem protLabels_length (rs : List (List Char)) : (protLabels rs).length = rs.length :=
  scanLabels_length _ _

theorem protLabels_snoc (rs : List (List Char)) (p : List Char) :
    protLabels (rs ++ [p]) =
      protLabels rs ++ [(scanStep (scanState initScan rs) p).1] := by
  unfold protLabels
  rw [scanLabels_append]
  rfl

theorem scanState_snoc (rs : List (List Char)) (p : List Char) :
    scanState initScan (rs ++ [p]) = (scanStep (scanState initScan rs) p).2 := by
  rw [scanState_append]
  rfl

theorem GoodAt_nil : GoodAt [] := by
  intro i a b h1
  simp at h1

theorem GoodAt_singleton (l : List Char) : GoodAt [l] := by
  intro i a b h1 h2
  rw [show (([l] : List (List Char))[i + 1]? = none) from by
    simp] at h2
  cases h2

/-- The main append step for `GoodAt`: a new line may be pushed when any
blank pair it completes is protected on both sides. -/
theorem GoodAt_snoc (rs : List (List Char)) (p : List Char) (hgood : GoodAt rs)
    (hpair : ∀ t, rs.getLast? = some t → isBlank t = true → isBlank p = true →
      (protLabels rs).getLast? = some true ∧
        (scanStep (scanState initScan rs) p).1 = true) :
    GoodAt (rs ++ [p]) := by
  intro i a b h1 h2 hba hbb
  have hlen2 : i + 1 < rs.length + 1 := by
    have := (List.getElem?_eq_some.mp h2).1
    simpa using this
  rw [protLabels_snoc]
  by_cases hcase : i + 1 < rs.length
  · have h1' : rs[i]? = some a := by
      rw [List.getElem?_append] at h1
      rw [if_pos (by omega)] at h1
      exact h1
    have h2' : rs[i + 1]? = some b := by
      rw [List.getElem?_append] at h2
      rw [if_pos hcase] at h2
      exact h2
    obtain ⟨g1, g2⟩ := hgood i a b h1' h2' hba hbb
    constructor
    · rw [List.getElem?_append, if_pos (by rw [protLabels_length]; omega)]
      exact g1
    · rw [List.getElem?_append, if_pos (by rw [protLabels_length]; omega)]
      exact g2
  · have hi1 : i + 1 = rs.length := by omega
    have hb : b = p := by
      rw [List.getElem?_append, if_neg (by omega)] at h2
      rw [hi1] at h2
      simp at h2
      exact h2.symm
    have hi : i < rs.length := by omega
    have h1' : rs[i]? = some a := by
      rw [List.getElem?_append, if_pos hi] at h1
      exact h1
    have hlast : rs.getLast? = some a := by
      rw [List.getLast?_eq_getElem?]
      rw [show rs.length - 1 = i from by omega]
      exact h1'
    obtain ⟨g1, g2⟩ := hpair a hlast hba (hb ▸ hbb)
    constructor
    · rw [List.getElem?_append, if_pos (by rw [protLabels_length]; omega)]
      rw [List.getLast?_eq_getElem?, protLabels_length] at g1
      rw [show i = rs.length - 1 from by omega]
      rw [← protLabels_length rs] at g1 ⊢
      exact g1
    · rw [List.getElem?_append, if_neg (by rw [protLabels_length]; omega)]
      rw [protLabels_length, hi1]
      simp [g2]

theorem GoodAt_snoc_lastNB (rs : List (List Char)) (p : List Char) (hgood : GoodAt rs)
    (h : ∀ t, rs.getLast? = some t → isBlank t = false) : GoodAt (rs ++ [p]) := by
  refine GoodAt_snoc rs p hgood ?_
  intro t hlast hbt _
  rw [h t hlast] at hbt
  cases hbt

theorem GoodAt_snoc_nonblank (rs : List (List Char)) (p : List Char) (hgood : GoodAt rs)
    (hp : isBlank p = false) : GoodAt (rs ++ [p]) := by
  refine GoodAt_snoc rs p hgood ?_
  intro t _ _ hbp
  rw [hp] at hbp
  cases hbp

theorem GoodAt_snoc_prot (rs : List (List Char)) (p : List Char) (hgood : GoodAt rs)
    (hlbl : lastBlankLabeled rs)
    (hlab : (scanStep (scanState initScan rs) p).1 = true) : GoodAt (rs ++ [p]) := by
  refine GoodAt_snoc rs p hgood ?_
  intro t hlast hbt _
  exact ⟨hlbl t hlast hbt, hlab⟩

theorem lastBlankLabeled_snoc (rs : List (List Char)) (p : List Char)
    (h : isBlank p = true → (scanStep (scanState initScan rs) p).1 = true) :
    lastBlankLabeled (rs ++ [p]) := by
  intro t hlast hbt
  rw [List.getLast?_concat] at hlast
  injection hlast with ht
  rw [protLabels_snoc, List.getLast?_concat]
  rw [h (ht ▸ hbt)]

/-! Scanner transition evaluation lemmas. -/

theorem scanStep_fmOpen (s : SSt) (l : List Char) (h1 : s.first = true)
    (h2 : trim l = dashes) :
    scanStep s l = (false, { s with first := false, fm := true }) := by
  unfold scanStep
  rw [if_pos ⟨h1, h2⟩]

theorem scanStep_fmClose (s : SSt) (l : List Char) (h1 : ¬(s.first = true ∧ trim l = dashes))
    (h2 : s.fm = true) (h3 : trim l = dashes) :
    scanStep s l = (false, { s with first := false, fm := false }) := by
  unfold scanStep
  rw [if_neg h1, if_pos ⟨h2, h3⟩]

theorem scanStep_fenceOpen (s : SSt) (l : List Char) (hnd : trim l ≠ dashes)
    (h2 : s.fm = false)
    (h3 : startsWithL (trim l) btMark = true ∨ startsWithL (trim l) tdMark = true)
    (h4 : s.fence = false) :
    scanStep s l =
      (false,
        { s with
          first := false
          fence := true
          marker := if startsWithL (trim l) btMark = true then btMark else tdMark }) := by
  unfold scanStep
  rw [if_neg (by simp [hnd]), if_neg (by simp [hnd]), if_pos ⟨h2, h3, h4⟩]

theorem scanStep_fenceClose (s : SSt) (l : List Char) (hnd : trim l ≠ dashes)
    (h2 : s.fm = false) (h4 : s.fence = true)
    (hcl : startsWithL (trim l) s.marker = true) (hlen : byteLen s.marker ≤ byteLen (trim l)) :
    scanStep s l = (false, { s with first := false, fence := false, marker := [] }) := by
  unfold scanStep
  rw [if_neg (by simp [hnd]), if_neg (by simp [hnd]), if_neg (by simp [h4]),
    if_pos ⟨h2, h4, hcl, hlen⟩]

theorem scanStep_else (s : SSt) (l : List Char)
    (h1 : ¬(s.first = true ∧ trim l = dashes))
    (h2 : ¬(s.fm = true ∧ trim l = dashes))
    (h3 : ¬(s.fm = false ∧
      (startsWithL (trim l) btMark = true ∨ startsWithL (trim l) tdMark = true) ∧
      s.fence = false))
    (h4 : ¬(s.fm = false ∧ s.fence = true ∧ startsWithL (trim l) s.marker = true ∧
      byteLen s.marker ≤ byteLen (trim l))) :
    scanStep s l = ((s.fm || s.fence), { s with first := false }) := by
  unfold scanStep
  rw [if_neg h1, if_neg h2, if_neg h3, if_neg h4]

/-! Helper facts for the C4 invariant. -/

theorem isBlank_false_of_dashes (l : List Char) (h : trim l = dashes) : isBlank l = false := by
  simp [isBlank, h, dashes_cons]

theorem nonblank_of_starts (l : List Char) (c : Char) (cs : List Char)
    (h : startsWithL (trim l) (c :: cs) = true) : isBlank l = false := by
  obtain ⟨y, hy⟩ := startsWithL_ex _ _ h
  simp [isBlank, hy]

theorem nd_of_starts_bt (l : List Char) (h : startsWithL (trim l) btMark = true) :
    trim l ≠ dashes := by
  obtain ⟨y, hy⟩ := startsWithL_ex _ _ h
  rw [btMark_cons] at hy
  simp only [List.cons_append, List.nil_append] at hy
  intro hd
  rw [hd, dashes_cons] at hy
  injection hy with h1 _
  exact absurd h1 (by decide)

theorem nd_of_starts_td (l : List Char) (h : startsWithL (trim l) tdMark = true) :
    trim l ≠ dashes := by
  obtain ⟨y, hy⟩ := startsWithL_ex _ _ h
  rw [tdMark_cons] at hy
  simp only [List.cons_append, List.nil_append] at hy
  intro hd
  rw [hd, dashes_cons] at hy
  injection hy with h1 _
  exact absurd h1 (by decide)

theorem scanStep_blankL (s : SSt)
    (hm : s.fence = true → s.marker = btMark ∨ s.marker = tdMark) :
    scanStep s blankL = ((s.fm || s.fence), { s with first := false }) := by
  apply scanStep_else
  · rintro ⟨-, h⟩
    exact absurd h (by decide)
  · rintro ⟨-, h⟩
    exact absurd h (by decide)
  · rintro ⟨-, h, -⟩
    rcases h with h | h <;> exact absurd h (by decide)
  · rintro ⟨-, hf, hsw, -⟩
    rcases hm hf with hmk | hmk <;> rw [hmk] at hsw <;> exact absurd hsw (by decide)

theorem Inv.fmPrev {st : St} {rem : List (List Char)} (inv : Inv st rem)
    (h : st.fm = true) : st.prev ≠ none := by
  intro hp
  have := inv.atStart hp
  rw [this] at h
  simp [initSt] at h

theorem Inv.fencePrev {st : St} {rem : List (List Char)} (inv : Inv st rem)
    (h : st.fence = true) : st.prev ≠ none := by
  intro hp
  have := inv.atStart hp
  rw [this] at h
  simp [initSt] at h

theorem Inv.resNe {st : St} {rem : List (List Char)} (inv : Inv st rem)
    (h : st.prev ≠ none) : st.res ≠ [] := fun he => h (inv.resPrev.mp he)

theorem Inv_step_fmOpen (st : St) (l : List Char) (rest : List (List Char))
    (inv : Inv st (l :: rest)) (h1 : st.prev = none) (h2 : trim l = dashes) :
    Inv (stepFn st l rest.head?) rest := by
  have hst : st = initSt := inv.atStart h1
  subst hst
  rw [stepFn_fmOpen initSt l rest.head? rfl h2]
  refine ⟨?_, ?_, ?_, ?_, ?_, ?_, ?_, ?_, ?_, ?_⟩
  · simp
  · simp
  · simp [initSt]
  · simp [initSt]
  · simp [initSt]
  · show scanState initScan ([] ++ [l]) = _
    rw [show ([] : List (List Char)) ++ [l] = [l] from rfl]
    rw [show scanState initScan [l] = (scanStep initScan l).2 from rfl]
    rw [scanStep_fmOpen initScan l rfl h2]
    rfl
  · show GoodAt ([] ++ [l])
    rw [show ([] : List (List Char)) ++ [l] = [l] from rfl]
    exact GoodAt_singleton l
  · intro _
    show lastBlankLabeled ([] ++ [l])
    exact lastBlankLabeled_snoc [] l
      (fun hb => absurd (isBlank_false_of_dashes l h2) (by simp [hb]))
  · intro hfm
    simp at hfm
  · intro h
    simp [initSt] at h

theorem stepFn_fmClose (st : St) (l : List Char) (nx : Option (List Char))
    (h1 : ¬(st.prev = none ∧ trim l = dashes)) (hfm : st.fm = true) (h2 : trim l = dashes) :
    stepFn st l nx =
      { st with
        fm := false
        res := (st.res ++ [l]) ++ (if nextNonBlank nx = true then [blankL] else [])
        prev := some l } := by
  unfold stepFn
  rw [if_neg h1, if_pos ⟨hfm, h2⟩]
  dsimp only
  split <;> simp

theorem nextNonBlank_some (nx : Option (List Char)) (h : nextNonBlank nx = true) :
    ∃ n, nx = some n ∧ isBlank n = false := by
  cases nx with
  | none => simp [nextNonBlank] at h
  | some n => exact ⟨n, rfl, by simpa [nextNonBlank] using h⟩

theorem isEmpty_false_of_ne {α : Type} (l : List α) (h : l ≠ []) : l.isEmpty = false := by
  cases l with
  | nil => exact absurd rfl h
  | cons a as => rfl

theorem Inv_step_fmClose (st : St) (l : List Char) (rest : List (List Char))
    (inv : Inv st (l :: rest)) (h1 : ¬(st.prev = none ∧ trim l = dashes))
    (hfm : st.fm = true) (h2 : trim l = dashes) :
    Inv (stepFn st l rest.head?) rest := by
  have hfc : st.fence = false := by
    cases hx : st.fence
    · rfl
    · exact absurd ⟨hfm, hx⟩ inv.excl
  have hpe : st.pe = false := inv.peProt (Or.inl hfm)
  have hprev : st.prev ≠ none := inv.fmPrev hfm
  have hres : st.res ≠ [] := inv.resNe hprev
  have hfirst : st.res.isEmpty = false := isEmpty_false_of_ne _ hres
  have hnbl : isBlank l = false := isBlank_false_of_dashes l h2
  have hs1 : scanState initScan (st.res ++ [l]) = ⟨false, false, st.fence, st.marker⟩ := by
    rw [scanState_snoc, inv.sync]
    rw [scanStep_fmClose ⟨st.res.isEmpty, st.fm, st.fence, st.marker⟩ l
      (by rintro ⟨hf, -⟩; rw [hfirst] at hf; cases hf) hfm h2]
  have hgood1 : GoodAt (st.res ++ [l]) := GoodAt_snoc_nonblank _ _ inv.good hnbl
  rw [stepFn_fmClose st l rest.head? h1 hfm h2]
  by_cases hnb : nextNonBlank rest.head? = true
  · rw [if_pos hnb]
    obtain ⟨n, hn, hnbk⟩ := nextNonBlank_some _ hnb
    refine ⟨?_, ?_, ?_, ?_, ?_, ?_, ?_, ?_, ?_, ?_⟩
    · simp
    · simp
    · simp
    · intro h
      exact hpe
    · intro h
      exact absurd h (by simp [hfc])
    · show scanState initScan ((st.res ++ [l]) ++ [blankL]) = _
      rw [scanState_snoc, hs1]
      rw [scanStep_blankL ⟨false, false, st.fence, st.marker⟩
        (fun h => inv.markerOk h)]
      simp [isEmpty_false_of_ne]
    · exact GoodAt_snoc_lastNB _ _ hgood1
        (fun t ht => by
          rw [List.getLast?_concat] at ht
          injection ht with ht
          rw [ht] at hnbl
          exact hnbl)
    · intro h
      exact absurd h (by simp [hfc])
    · intro _ _ _ t hlast hbt
      exact ⟨n, hn, hnbk⟩
    · intro h
      rw [hpe] at h
      cases h
  · rw [if_neg hnb]
    refine ⟨?_, ?_, ?_, ?_, ?_, ?_, ?_, ?_, ?_, ?_⟩
    · simp
    · simp
    · simp
    · intro h
      exact hpe
    · intro h
      exact absurd h (by simp [hfc])
    · show scanState initScan ((st.res ++ [l]) ++ []) = _
      rw [List.append_nil, hs1]
      simp [isEmpty_false_of_ne]
    · show GoodAt ((st.res ++ [l]) ++ [])
      rw [List.append_nil]
      exact hgood1
    · intro h
      exact absurd h (by simp [hfc])
    · intro _ _ _ t hlast hbt
      rw [List.append_nil, List.getLast?_concat] at hlast
      injection hlast with hlast
      rw [hlast] at hnbl
      rw [hnbl] at hbt
      cases hbt
    · intro h
      rw [hpe] at h
      cases h

theorem nonblank_of_marker (l : List Char)
    (h : startsWithL (trim l) btMark = true ∨ startsWithL (trim l) tdMark = true) :
    isBlank l = false := by
  rcases h with h | h
  · rw [btMark_cons] at h
    exact nonblank_of_starts l _ _ h
  · rw [tdMark_cons] at h
    exact nonblank_of_starts l _ _ h

theorem nd_of_marker (l : List Char)
    (h : startsWithL (trim l) btMark = true ∨ startsWithL (trim l) tdMark = true) :
    trim l ≠ dashes := by
  rcases h with h | h
  · exact nd_of_starts_bt l h
  · exact nd_of_starts_td l h

theorem ne_nil_of_lastNonBlank (rs : List (List Char)) (h : lastNonBlank rs = true) :
    rs ≠ [] := by
  intro he
  rw [he] at h
  simp [lastNonBlank] at h

theorem lastNB_spec (rs : List (List Char)) (h : lastNonBlank rs = true) :
    ∀ t, rs.getLast? = some t → isBlank t = false := by
  intro t ht
  unfold lastNonBlank at h
  rw [ht] at h
  simpa using h

theorem stepFn_fenceOpen (st : St) (l : List Char) (nx : Option (List Char))
    (hnd : trim l ≠ dashes) (hfm : st.fm = false)
    (hst : startsWithL (trim l) btMark = true ∨ startsWithL (trim l) tdMark = true)
    (hfc : st.fence = false) :
    stepFn st l nx =
      { st with
        fence := true
        marker := if startsWithL (trim l) btMark = true then btMark else tdMark
        res := (if lastNonBlank st.res = true then st.res ++ [blankL] else st.res) ++ [l]
        pe := false
        prev := some l } := by
  unfold stepFn
  rw [if_neg (by simp [hnd]), if_neg (by simp [hfm]), if_pos ⟨hfm, hst, hfc⟩]

theorem stepFn_fenceClose (st : St) (l : List Char) (nx : Option (List Char))
    (hnd : trim l ≠ dashes) (hfm : st.fm = false) (hfc : st.fence = true)
    (hcl : startsWithL (trim l) st.marker = true)
    (hlen : byteLen st.marker ≤ byteLen (trim l)) :
    stepFn st l nx =
      { st with
        fence := false
        marker := []
        res := (st.res ++ [l]) ++ (if nextNonBlank nx = true then [blankL] else [])
        pe := false
        prev := some l } := by
  unfold stepFn
  rw [if_neg (by simp [hnd]), if_neg (by simp [hnd]), if_neg (by simp [hfc]),
    if_pos ⟨hfm, hfc, hcl, hlen⟩]
  dsimp only
  split <;> simp

theorem Inv_step_fenceOpen (st : St) (l : List Char) (rest : List (List Char))
    (inv : Inv st (l :: rest)) (hfm : st.fm = false)
    (hst : startsWithL (trim l) btMark = true ∨ startsWithL (trim l) tdMark = true)
    (hfc : st.fence = false) :
    Inv (stepFn st l rest.head?) rest := by
  have hnd : trim l ≠ dashes := nd_of_marker l hst
  have hnbl : isBlank l = false := nonblank_of_marker l hst
  rw [stepFn_fenceOpen st l rest.head? hnd hfm hst hfc]
  by_cases hlast : lastNonBlank st.res = true
  · rw [if_pos hlast]
    have hresne : st.res ≠ [] := ne_nil_of_lastNonBlank _ hlast
    have hs1 : scanState initScan (st.res ++ [blankL]) =
        ⟨false, false, false, st.marker⟩ := by
      rw [scanState_snoc, inv.sync]
      rw [scanStep_blankL ⟨st.res.isEmpty, st.fm, st.fence, st.marker⟩
        (fun h => inv.markerOk h)]
      simp [hfm, hfc]
    refine ⟨?_, ?_, ?_, ?_, ?_, ?_, ?_, ?_, ?_, ?_⟩
    · simp
    · simp
    · simp [hfm]
    · intro _
      rfl
    · intro _
      dsimp only
      split
      · exact Or.inl rfl
      · exact Or.inr rfl
    · show scanState initScan ((st.res ++ [blankL]) ++ [l]) = _
      rw [scanState_snoc, hs1]
      rw [scanStep_fenceOpen ⟨false, false, false, st.marker⟩ l hnd rfl hst rfl]
      simp [hfm]
    · exact GoodAt_snoc_nonblank _ _
        (GoodAt_snoc_lastNB _ _ inv.good (lastNB_spec _ hlast)) hnbl
    · intro _
      exact lastBlankLabeled_snoc _ _ (fun hb => by rw [hnbl] at hb; cases hb)
    · intro _ hfc' _
      simp at hfc'
    · intro h
      simp at h
  · rw [if_neg hlast]
    refine ⟨?_, ?_, ?_, ?_, ?_, ?_, ?_, ?_, ?_, ?_⟩
    · simp
    · simp
    · simp [hfm]
    · intro _
      rfl
    · intro _
      dsimp only
      split
      · exact Or.inl rfl
      · exact Or.inr rfl
    · show scanState initScan (st.res ++ [l]) = _
      rw [scanState_snoc, inv.sync]
      rw [scanStep_fenceOpen ⟨st.res.isEmpty, st.fm, st.fence, st.marker⟩ l hnd hfm hst hfc]
      simp [hfm]
    · exact GoodAt_snoc_nonblank _ _ inv.good hnbl
    · intro _
      exact lastBlankLabeled_snoc _ _ (fun hb => by rw [hnbl] at hb; cases hb)
    · intro _ hfc' _
      simp at hfc'
    · intro h
      simp at h

theorem Inv_step_fenceClose (st : St) (l : List Char) (rest : List (List Char))
    (inv : Inv st (l :: rest)) (hfm : st.fm = false) (hfc : st.fence = true)
    (hcl : startsWithL (trim l) st.marker = true)
    (hlen : byteLen st.marker ≤ byteLen (trim l)) :
    Inv (stepFn st l rest.head?) rest := by
  have hmk := inv.markerOk hfc
  have hstarts : startsWithL (trim l) btMark = true ∨ startsWithL (trim l) tdMark = true := by
    rcases hmk with h | h
    · exact Or.inl (h ▸ hcl)
    · exact Or.inr (h ▸ hcl)
  have hnd : trim l ≠ dashes := nd_of_marker l hstarts
  have hnbl : isBlank l = false := nonblank_of_marker l hstarts
  have hprev : st.prev ≠ none := inv.fencePrev hfc
  have hres : st.res ≠ [] := inv.resNe hprev
  have hs1 : scanState initScan (st.res ++ [l]) = ⟨false, false, false, []⟩ := by
    rw [scanState_snoc, inv.sync]
    rw [scanStep_fenceClose ⟨st.res.isEmpty, st.fm, st.fence, st.marker⟩ l hnd hfm hfc hcl
      hlen]
    simp [hfm]
  have hgood1 : GoodAt (st.res ++ [l]) := GoodAt_snoc_nonblank _ _ inv.good hnbl
  rw [stepFn_fenceClose st l rest.head? hnd hfm hfc hcl hlen]
  by_cases hnb : nextNonBlank rest.head? = true
  · rw [if_pos hnb]
    obtain ⟨n, hn, hnbk⟩ := nextNonBlank_some _ hnb
    refine ⟨?_, ?_, ?_, ?_, ?_, ?_, ?_, ?_, ?_, ?_⟩
    · simp
    · simp
    · simp
    · intro _
      rfl
    · intro h
      cases h
    · show scanState initScan ((st.res ++ [l]) ++ [blankL]) = _
      rw [scanState_snoc, hs1]
      rw [scanStep_blankL ⟨false, false, false, []⟩ (fun h => by cases h)]
      simp [hfm]
    · exact GoodAt_snoc_lastNB _ _ hgood1
        (fun t ht => by
          rw [List.getLast?_concat] at ht
          injection ht with ht
          rw [ht] at hnbl
          exact hnbl)
    · intro h
      rcases h with h | h
      · exact absurd h (by simp [hfm])
      · cases h
    · intro _ _ _ t hlast hbt
      exact ⟨n, hn, hnbk⟩
    · intro h
      cases h
  · rw [if_neg hnb]
    refine ⟨?_, ?_, ?_, ?_, ?_, ?_, ?_, ?_, ?_, ?_⟩
    · simp
    · simp
    · simp
    · intro _
      rfl
    · intro h
      cases h
    · show scanState initScan ((st.res ++ [l]) ++ []) = _
      rw [List.append_nil, hs1]
      have hie : (st.res ++ [l]).isEmpty = false := isEmpty_false_of_ne _ (by simp)
      simp [hfm, hie]
    · show GoodAt ((st.res ++ [l]) ++ [])
      rw [List.append_nil]
      exact hgood1
    · intro h
      rcases h with h | h
      · exact absurd h (by simp [hfm])
      · cases h
    · intro _ _ _ t hlast hbt
      rw [List.append_nil, List.getLast?_concat] at hlast
      injection hlast with hlast
      rw [hlast] at hnbl
      rw [hnbl] at hbt
      cases hbt
    · intro h
      cases h

theorem Inv_step_fmInside (st : St) (l : List Char) (rest : List (List Char))
    (inv : Inv st (l :: rest)) (hfm : st.fm = true) (hnd : trim l ≠ dashes) :
    Inv (stepFn st l rest.head?) rest := by
  have hfc : st.fence = false := by
    cases hx : st.fence
    · rfl
    · exact absurd ⟨hfm, hx⟩ inv.excl
  have hprev : st.prev ≠ none := inv.fmPrev hfm
  have hres : st.res ≠ [] := inv.resNe hprev
  have hfirst : st.res.isEmpty = false := isEmpty_false_of_ne _ hres
  have hlab : (scanStep (scanState initScan st.res) l).1 = true := by
    rw [inv.sync]
    rw [scanStep_else ⟨st.res.isEmpty, st.fm, st.fence, st.marker⟩ l
      (by rintro ⟨hf, -⟩; rw [hfirst] at hf; cases hf)
      (by rintro ⟨-, hd⟩; exact hnd hd)
      (by rintro ⟨hf, -⟩; rw [hfm] at hf; cases hf)
      (by rintro ⟨hf, -⟩; rw [hfm] at hf; cases hf)]
    simp [hfm]
  rw [stepFn_fmInside st l rest.head? hfm hfc hnd]
  refine ⟨?_, ?_, ?_, ?_, ?_, ?_, ?_, ?_, ?_, ?_⟩
  · simp
  · intro h
    cases h
  · simp [hfc]
  · intro _
    rfl
  · exact inv.markerOk
  · show scanState initScan (st.res ++ [l]) = _
    rw [scanState_snoc, inv.sync]
    rw [scanStep_else ⟨st.res.isEmpty, st.fm, st.fence, st.marker⟩ l
      (by rintro ⟨hf, -⟩; rw [hfirst] at hf; cases hf)
      (by rintro ⟨-, hd⟩; exact hnd hd)
      (by rintro ⟨hf, -⟩; rw [hfm] at hf; cases hf)
      (by rintro ⟨hf, -⟩; rw [hfm] at hf; cases hf)]
    have hie : (st.res ++ [l]).isEmpty = false := isEmpty_false_of_ne _ (by simp)
    simp [hie]
  · exact GoodAt_snoc_prot _ _ inv.good (inv.protLast (Or.inl hfm)) hlab
  · intro _
    exact lastBlankLabeled_snoc _ _ (fun _ => hlab)
  · intro h
    exact absurd h (by simp [hfm])
  · intro h
    cases h

theorem Inv_step_fenceInside (st : St) (l : List Char) (rest : List (List Char))
    (inv : Inv st (l :: rest)) (hfm : st.fm = false) (hfc : st.fence = true)
    (hncl : ¬(startsWithL (trim l) st.marker = true ∧ byteLen st.marker ≤ byteLen (trim l))) :
    Inv (stepFn st l rest.head?) rest := by
  have hprev : st.prev ≠ none := inv.fencePrev hfc
  have hres : st.res ≠ [] := inv.resNe hprev
  have hfirst : st.res.isEmpty = false := isEmpty_false_of_ne _ hres
  have hpe : st.pe = false := inv.peProt (Or.inr hfc)
  have hlab : (scanStep (scanState initScan st.res) l).1 = true := by
    rw [inv.sync]
    rw [scanStep_else ⟨st.res.isEmpty, st.fm, st.fence, st.marker⟩ l
      (by rintro ⟨hf, -⟩; rw [hfirst] at hf; cases hf)
      (by rintro ⟨hf, -⟩; rw [hfm] at hf; cases hf)
      (by rintro ⟨-, -, hf⟩; rw [hfc] at hf; cases hf)
      (by rintro ⟨-, -, hc, hl⟩; exact hncl ⟨hc, hl⟩)]
    simp [hfc]
  rw [stepFn_fenceInside st l rest.head? hprev hfm hfc hncl]
  split
  · refine ⟨?_, ?_, ?_, ?_, ?_, ?_, ?_, ?_, ?_, ?_⟩
    · constructor
      · intro h
        exact absurd h hres
      · intro h
        cases h
    · intro h
      cases h
    · exact inv.excl
    · intro _
      exact hpe
    · exact inv.markerOk
    · exact inv.sync
    · exact inv.good
    · intro _
      exact inv.protLast (Or.inr hfc)
    · intro _ h
      exact absurd h (by simp [hfc])
    · intro h
      exact inv.peRes h
  · refine ⟨?_, ?_, ?_, ?_, ?_, ?_, ?_, ?_, ?_, ?_⟩
    · simp
    · intro h
      cases h
    · exact inv.excl
    · intro _
      rfl
    · exact inv.markerOk
    · show scanState initScan (st.res ++ [l]) = _
      rw [scanState_snoc, inv.sync]
      rw [scanStep_else ⟨st.res.isEmpty, st.fm, st.fence, st.marker⟩ l
        (by rintro ⟨hf, -⟩; rw [hfirst] at hf; cases hf)
        (by rintro ⟨hf, -⟩; rw [hfm] at hf; cases hf)
        (by rintro ⟨-, -, hf⟩; rw [hfc] at hf; cases hf)
        (by rintro ⟨-, -, hc, hl⟩; exact hncl ⟨hc, hl⟩)]
      have hie : (st.res ++ [l]).isEmpty = false := isEmpty_false_of_ne _ (by simp)
      simp [hie]
    · exact GoodAt_snoc_prot _ _ inv.good (inv.protLast (Or.inr hfc)) hlab
    · intro _
      exact lastBlankLabeled_snoc _ _ (fun _ => hlab)
    · intro _ h
      exact absurd h (by simp [hfc])
    · intro h
      cases h

theorem blank_trim (l : List Char) (h : isBlank l = true) : trim l = [] := by
  unfold isBlank at h
  cases ht : trim l with
  | nil => rfl
  | cons a b =>
    rw [ht] at h
    simp at h

theorem blank_not_heading (l : List Char) (h : isBlank l = true) : is_heading l = false := by
  have ht := blank_trim l h
  unfold is_heading
  rw [ht]
  rfl

theorem blank_not_list (l : List Char) (h : isBlank l = true) : is_list_marker l = false := by
  have ht := blank_trim l h
  unfold is_list_marker
  rw [ht]
  rfl

theorem scanStep_bodyLine (s : SSt) (l : List Char)
    (h1 : ¬(s.first = true ∧ trim l = dashes))
    (hfm : s.fm = false) (hfc : s.fence = false)
    (hnm : ¬(startsWithL (trim l) btMark = true ∨ startsWithL (trim l) tdMark = true)) :
    scanStep s l = (false, { s with first := false }) := by
  rw [scanStep_else s l h1
    (by rintro ⟨hf, -⟩; rw [hfm] at hf; cases hf)
    (by rintro ⟨-, hm, -⟩; exact hnm hm)
    (by rintro ⟨-, hf, -⟩; rw [hfc] at hf; cases hf)]
  simp [hfm, hfc]

theorem sync_body_snoc (rs : List (List Char)) (m p : List Char)
    (hs : scanState initScan rs = ⟨rs.isEmpty, false, false, m⟩)
    (h1 : ¬(rs.isEmpty = true ∧ trim p = dashes))
    (hnm : ¬(startsWithL (trim p) btMark = true ∨ startsWithL (trim p) tdMark = true)) :
    scanState initScan (rs ++ [p]) = ⟨(rs ++ [p]).isEmpty, false, false, m⟩ := by
  rw [scanState_snoc, hs, scanStep_bodyLine ⟨rs.isEmpty, false, false, m⟩ p h1 rfl rfl hnm]
  have hie : (rs ++ [p]).isEmpty = false := isEmpty_false_of_ne _ (by simp)
  simp [hie]

theorem sync_blank_snoc (rs : List (List Char)) (m : List Char)
    (hs : scanState initScan rs = ⟨rs.isEmpty, false, false, m⟩) :
    scanState initScan (rs ++ [blankL]) = ⟨(rs ++ [blankL]).isEmpty, false, false, m⟩ :=
  sync_body_snoc rs m blankL hs (by rintro ⟨-, hd⟩; exact absurd hd (by decide))
    (by rintro (h | h) <;> exact absurd h (by decide))

theorem stepFn_body (st : St) (l : List Char) (nx : Option (List Char))
    (h1 : ¬(st.prev = none ∧ trim l = dashes)) (hfm : st.fm = false) (hfc : st.fence = false)
    (hnm : ¬(startsWithL (trim l) btMark = true ∨ startsWithL (trim l) tdMark = true)) :
    stepFn st l nx =
      (let ilgs := is_list_marker l && (st.prev.isNone || !is_list_marker (st.prev.getD []))
      let r := if (is_heading l = true ∨ ilgs = true) ∧ lastNonBlank st.res = true then
          st.res ++ [blankL] else st.res
      let r := if isBlank l = true then (if st.pe = false then r ++ [l] else r) else r ++ [l]
      let ilge := is_list_marker l &&
        !(match nx with | some n => is_list_marker n | none => false)
      let r := if (is_heading l = true ∨ ilge = true) ∧ nextNonBlank nx = true then
          r ++ [blankL] else r
      { st with res := r, pe := isBlank l, prev := some l }) := by
  unfold stepFn
  rw [if_neg h1]
  rw [if_neg (by simp [hfm])]
  rw [if_neg (by rintro ⟨-, hm, -⟩; exact hnm hm)]
  rw [if_neg (by simp [hfc])]
  rw [if_neg (by simp [hfm, hfc])]

theorem Inv_body_push (st : St) (l : List Char) (rest : List (List Char))
    (inv : Inv st (l :: rest)) (hfm : st.fm = false) (hfc : st.fence = false)
    (hblf : isBlank l = false)
    (hnm : ¬(startsWithL (trim l) btMark = true ∨ startsWithL (trim l) tdMark = true))
    (pre : List (List Char))
    (hsync : scanState initScan pre = ⟨pre.isEmpty, false, false, st.marker⟩)
    (hgood : GoodAt pre)
    (hselfpre : ¬(pre.isEmpty = true ∧ trim l = dashes))
    (post : List (List Char))
    (hpost : post = [] ∨ (post = [blankL] ∧ nextNonBlank rest.head? = true)) :
    Inv { st with res := (pre ++ [l]) ++ post, pe := false, prev := some l } rest := by
  have hs2 : scanState initScan (pre ++ [l]) =
      ⟨(pre ++ [l]).isEmpty, false, false, st.marker⟩ :=
    sync_body_snoc pre st.marker l hsync hselfpre hnm
  have hg2 : GoodAt (pre ++ [l]) := GoodAt_snoc_nonblank _ _ hgood hblf
  refine ⟨?_, ?_, ?_, ?_, ?_, ?_, ?_, ?_, ?_, ?_⟩
  · constructor
    · intro h
      rcases hpost with hp | ⟨hp, -⟩ <;> rw [hp] at h <;> simp at h
    · intro h
      cases h
  · intro h
    cases h
  · simp [hfm]
  · intro h
    rcases h with h | h
    · exact absurd h (by simp [hfm])
    · exact absurd h (by simp [hfc])
  · exact inv.markerOk
  · show scanState initScan ((pre ++ [l]) ++ post) = _
    rcases hpost with hp | ⟨hp, -⟩ <;> subst hp
    · rw [List.append_nil, hs2, hfm, hfc]
    · rw [sync_blank_snoc (pre ++ [l]) st.marker hs2, hfm, hfc]
  · show GoodAt ((pre ++ [l]) ++ post)
    rcases hpost with hp | ⟨hp, -⟩ <;> subst hp
    · rw [List.append_nil]
      exact hg2
    · exact GoodAt_snoc_lastNB _ _ hg2 (fun t ht => by
        rw [List.getLast?_concat] at ht
        injection ht with ht
        rw [← ht]
        exact hblf)
  · intro h
    rcases h with h | h
    · exact absurd h (by simp [hfm])
    · exact absurd h (by simp [hfc])
  · intro _ _ _ t hlast hbt
    rcases hpost with hp | ⟨hp, hnb⟩
    · subst hp
      rw [List.append_nil, List.getLast?_concat] at hlast
      injection hlast with hl
      rw [← hl, hblf] at hbt
      cases hbt
    · exact nextNonBlank_some _ hnb
  · intro h
    cases h

theorem Inv_step_body (st : St) (l : List Char) (rest : List (List Char))
    (inv : Inv st (l :: rest)) (h1 : ¬(st.prev = none ∧ trim l = dashes))
    (hfm : st.fm = false) (hfc : st.fence = false)
    (hnm : ¬(startsWithL (trim l) btMark = true ∨ startsWithL (trim l) tdMark = true)) :
    Inv (stepFn st l rest.head?) rest := by
  have hs0 : scanState initScan st.res = ⟨st.res.isEmpty, false, false, st.marker⟩ := by
    rw [inv.sync, hfm, hfc]
  have hself : ¬(st.res.isEmpty = true ∧ trim l = dashes) := by
    rintro ⟨he, hd⟩
    have hre : st.res = [] := by
      cases hx : st.res with
      | nil => rfl
      | cons a b =>
        rw [hx] at he
        simp at he
    exact h1 ⟨inv.resPrev.mp hre, hd⟩
  rw [stepFn_body st l rest.head? h1 hfm hfc hnm]
  dsimp only
  by_cases hbl : isBlank l = true
  · have hh : is_heading l = false := blank_not_heading l hbl
    have hlm : is_list_marker l = false := blank_not_list l hbl
    have hAneg : ¬((is_heading l = true ∨ (is_list_marker l &&
        (st.prev.isNone || !is_list_marker (st.prev.getD []))) = true) ∧
        lastNonBlank st.res = true) := by
      rintro ⟨hor, -⟩
      rw [hh, hlm] at hor
      simp at hor
    have hBneg : ¬((is_heading l = true ∨ (is_list_marker l &&
        !(match rest.head? with | some n => is_list_marker n | none => false)) = true) ∧
        nextNonBlank rest.head? = true) := by
      rintro ⟨hor, -⟩
      rw [hh, hlm] at hor
      simp at hor
    rw [if_neg hBneg, if_pos hbl, if_neg hAneg, hbl]
    by_cases hpe : st.pe = false
    · rw [if_pos hpe]
      have hlastnb : ∀ t, st.res.getLast? = some t → isBlank t = false := by
        intro t ht
        cases hx : isBlank t with
        | false => rfl
        | true =>
          obtain ⟨n, hn, hnb⟩ := inv.bodyLast hfm hfc hpe t ht hx
          rw [show (l :: rest).head? = some l from rfl] at hn
          injection hn with hn
          rw [← hn] at hnb
          rw [hbl] at hnb
          cases hnb
      refine ⟨?_, ?_, ?_, ?_, ?_, ?_, ?_, ?_, ?_, ?_⟩
      · simp
      · intro h
        cases h
      · simp [hfm]
      · intro h
        rcases h with h | h
        · exact absurd h (by simp [hfm])
        · exact absurd h (by simp [hfc])
      · exact inv.markerOk
      · show scanState initScan (st.res ++ [l]) = _
        rw [sync_body_snoc st.res st.marker l hs0 hself hnm, hfm, hfc]
      · exact GoodAt_snoc st.res l inv.good
          (fun t ht hbt _ => absurd hbt (by rw [hlastnb t ht]; simp))
      · intro h
        rcases h with h | h
        · exact absurd h (by simp [hfm])
        · exact absurd h (by simp [hfc])
      · intro _ _ h
        cases h
      · intro _
        simp
    · rw [if_neg hpe]
      have hpet : st.pe = true := by
        cases hx : st.pe with
        | false => exact absurd hx hpe
        | true => rfl
      have hresne : st.res ≠ [] := inv.peRes hpet
      refine ⟨?_, ?_, ?_, ?_, ?_, ?_, ?_, ?_, ?_, ?_⟩
      · constructor
        · intro h
          exact absurd h hresne
        · intro h
          cases h
      · intro h
        cases h
      · simp [hfm]
      · intro h
        rcases h with h | h
        · exact absurd h (by simp [hfm])
        · exact absurd h (by simp [hfc])
      · exact inv.markerOk
      · exact inv.sync
      · exact inv.good
      · intro h
        rcases h with h | h
        · exact absurd h (by simp [hfm])
        · exact absurd h (by simp [hfc])
      · intro _ _ h
        cases h
      · intro _
        exact hresne
  · have hblf : isBlank l = false := by
      cases hx : isBlank l with
      | false => rfl
      | true => exact absurd hx hbl
    rw [if_neg hbl, hblf]
    by_cases hA : (is_heading l = true ∨ (is_list_marker l &&
        (st.prev.isNone || !is_list_marker (st.prev.getD []))) = true) ∧
        lastNonBlank st.res = true
    · rw [if_pos hA]
      have hsync1 : scanState initScan (st.res ++ [blankL]) =
          ⟨(st.res ++ [blankL]).isEmpty, false, false, st.marker⟩ :=
        sync_blank_snoc st.res st.marker hs0
      have hgood1 : GoodAt (st.res ++ [blankL]) :=
        GoodAt_snoc_lastNB _ _ inv.good (lastNB_spec _ hA.2)
      have hself1 : ¬((st.res ++ [blankL]).isEmpty = true ∧ trim l = dashes) := by
        rintro ⟨he, -⟩
        simp at he
      by_cases hB : (is_heading l = true ∨ (is_list_marker l &&
          !(match rest.head? with | some n => is_list_marker n | none => false)) = true) ∧
          nextNonBlank rest.head? = true
      · rw [if_pos hB]
        exact Inv_body_push st l rest inv hfm hfc hblf hnm (st.res ++ [blankL]) hsync1
          hgood1 hself1 [blankL] (Or.inr ⟨rfl, hB.2⟩)
      · rw [if_neg hB]
        have h := Inv_body_push st l rest inv hfm hfc hblf hnm (st.res ++ [blankL]) hsync1
          hgood1 hself1 [] (Or.inl rfl)
        rw [List.append_nil] at h
        exact h
    · rw [if_neg hA]
      by_cases hB : (is_heading l = true ∨ (is_list_marker l &&
          !(match rest.head? with | some n => is_list_marker n | none => false)) = true) ∧
          nextNonBlank rest.head? = true
      · rw [if_pos hB]
        exact Inv_body_push st l rest inv hfm hfc hblf hnm st.res hs0 inv.good hself
          [blankL] (Or.inr ⟨rfl, hB.2⟩)
      · rw [if_neg hB]
        have h := Inv_body_push st l rest inv hfm hfc hblf hnm st.res hs0 inv.good hself
          [] (Or.inl rfl)
        rw [List.append_nil] at h
        exact h

theorem Inv_step (st : St) (l : List Char) (rest : List (List Char))
    (inv : Inv st (l :: rest)) : Inv (stepFn st l rest.head?) rest := by
  by_cases hA : st.prev = none ∧ trim l = dashes
  · exact Inv_step_fmOpen st l rest inv hA.1 hA.2
  by_cases hB : st.fm = true ∧ trim l = dashes
  · exact Inv_step_fmClose st l rest inv hA hB.1 hB.2
  by_cases hfm : st.fm = true
  · exact Inv_step_fmInside st l rest inv hfm (fun hd => hB ⟨hfm, hd⟩)
  have hfmf : st.fm = false := by
    cases hx : st.fm
    · rfl
    · exact absurd hx hfm
  by_cases hC : (startsWithL (trim l) btMark = true ∨ startsWithL (trim l) tdMark = true) ∧
      st.fence = false
  · exact Inv_step_fenceOpen st l rest inv hfmf hC.1 hC.2
  by_cases hfc : st.fence = true
  · by_cases hD : startsWithL (trim l) st.marker = true ∧
        byteLen st.marker ≤ byteLen (trim l)
    · exact Inv_step_fenceClose st l rest inv hfmf hfc hD.1 hD.2
    · exact Inv_step_fenceInside st l rest inv hfmf hfc hD
  have hfcf : st.fence = false := by
    cases hx : st.fence
    · rfl
    · exact absurd hx hfc
  exact Inv_step_body st l rest inv hA hfmf hfcf (fun hm => hC ⟨hm, hfcf⟩)

theorem Inv_init (ls : List (List Char)) : Inv initSt ls := by
  refine ⟨?_, ?_, ?_, ?_, ?_, ?_, ?_, ?_, ?_, ?_⟩
  · simp [initSt]
  · intro _
    rfl
  · simp [initSt]
  · intro _
    rfl
  · intro h
    simp [initSt] at h
  · rfl
  · exact GoodAt_nil
  · intro _ t ht
    simp [initSt] at ht
  · intro _ _ _ t ht
    simp [initSt] at ht
  · intro h
    simp [initSt] at h

theorem Inv_loop (ls : List (List Char)) (st : St) (inv : Inv st ls) :
    Inv (loop st ls) [] := by
  induction ls generalizing st with
  | nil => exact inv
  | cons l rest ih => exact ih (stepFn st l rest.head?) (Inv_step st l rest inv)

/-- Claim C9 (confirmed): the text logic of the Emptiness Classifier and
the Line Normalizer is total: for every input string and flag value the
pipeline returns a result — in particular the byte slices at
`frontmatter_end` are always in range and on character boundaries, so the
`none` (panic) case of the model is unreachable. -/
theorem c9_total (content : List Char) (allow_delete : Bool) :
    (process_md_file content allow_delete).isSome = true := by
  unfold process_md_file
  by_cases h1 : (trim content).isEmpty
  · rw [if_pos h1]
    cases allow_delete <;> rfl
  · rw [if_neg h1]
    dsimp only
    cases hsp : stripPfx content dashesNl with
    | none =>
      simp only [hsp]
      repeat' split
      all_goals rfl
    | some stripped =>
      simp only [hsp]
      cases hfind : findSub stripped nlDashesNl with
      | none =>
        simp only [hfind]
        repeat' split
        all_goals rfl
      | some b =>
        simp only [hfind]
        obtain ⟨x, y, hxy, hx⟩ := findSub_decomp stripped nlDashesNl b hfind
        have hcontent : content = (dashesNl ++ x ++ nlDashesNl) ++ y := by
          rw [stripPfx_decomp content dashesNl stripped hsp, hxy]
          simp
        have hlen : 4 + b + 5 = byteLen (dashesNl ++ x ++ nlDashesNl) := by
          rw [byteLen_append, byteLen_append]
          rw [show byteLen dashesNl = 4 from by decide,
            show byteLen nlDashesNl = 5 from by decide, hx]
        have hsome : splitAtByte content (4 + b + 5) =
            some (dashesNl ++ x ++ nlDashesNl, y) := by
          rw [hcontent, hlen]
          exact splitAtByte_append _ _
        simp only [hsome]
        repeat' split
        all_goals rfl

/-- Claim C5 (corrected): a document whose whole text trims to empty, or a
document that starts with the line `---` and in which the literal sequence
`"\n---\n"` occurs later (so the closing `---` line is itself terminated by
a newline and is not spliced directly onto the opener) with the text after
that closing line trimming to empty, is deleted when deletion is allowed
and left unchanged otherwise; no rewritten content is produced. -/
theorem c5_delete_or_unchanged :
    (∀ (content : List Char) (ad : Bool), (trim content).isEmpty = true →
      process_md_file content ad = some (if ad then Outcome.deleted else Outcome.unchanged)) ∧
    (∀ (content stripped : List Char) (b : Nat) (fmPart body : List Char) (ad : Bool),
      stripPfx content dashesNl = some stripped →
      findSub stripped nlDashesNl = some b →
      splitAtByte content (4 + b + 5) = some (fmPart, body) →
      (trim body).isEmpty = true →
      process_md_file content ad = some (if ad then Outcome.deleted else Outcome.unchanged)) := by
  constructor
  · intro content ad h
    unfold process_md_file
    rw [if_pos h]
    cases ad <;> rfl
  · intro content stripped b fmPart body ad hsp hfind hsplit hbody
    unfold process_md_file
    by_cases h1 : (trim content).isEmpty
    · rw [if_pos h1]
      cases ad <;> rfl
    · rw [if_neg h1]
      dsimp only
      simp only [hsp, hfind, hsplit]
      rw [if_pos (⟨by simp, hbody⟩ : _ ∧ _)]
      cases ad <;> rfl

/-- Counterexample to claim C5 as stated: in `"---\nok\n---"` the last
line is exactly `---` and the text after it trims to empty, yet with
deletion permitted the file is reported `Unchanged`, not `Deleted` — the
code only recognises a closing delimiter through the substring
`"\n---\n"`, which requires the closing line to be newline-terminated. -/
theorem c5_counterexample :
    process_md_file (("---\nok\n---").data) true = some Outcome.unchanged ∧
    process_md_file (("---\nok\n---").data) true ≠ some Outcome.deleted := by
  exact ⟨by decide, by decide⟩

/-- Witness for `c5_delete_or_unchanged` at concrete inputs. -/
theorem c5_witness :
    process_md_file (("   \n").data) true = some Outcome.deleted ∧
    process_md_file (("---\nt: 1\n---\n  \n").data) true = some Outcome.deleted ∧
    process_md_file (("---\nt: 1\n---\n  \n").data) false = some Outcome.unchanged := by
  refine ⟨?_, ?_, ?_⟩
  · simpa using c5_delete_or_unchanged.1 (("   \n").data) true (by decide)
  · simpa using c5_delete_or_unchanged.2 (("---\nt: 1\n---\n  \n").data)
      (("t: 1\n---\n  \n").data) 4 (("---\nt: 1\n---\n").data) (("  \n").data) true
      (by decide) (by decide) (by decide) (by decide)
  · simpa using c5_delete_or_unchanged.2 (("---\nt: 1\n---\n  \n").data)
      (("t: 1\n---\n  \n").data) 4 (("---\nt: 1\n---\n").data) (("  \n").data) false
      (by decide) (by decide) (by decide) (by decide)

/-- Claim C10 (confirmed): the `(deleted, modified)` pair is never
`(true, true)`, and a `Deleted` result can only arise from the emptiness
checks — before any normalized content exists — never after the
normalization step. -/
theorem c10_deleted_modified_exclusive :
    (∀ (content : List Char) (ad : Bool), process_md_pair content ad ≠ some (true, true)) ∧
    (∀ (content : List Char) (ad : Bool),
      process_md_file content ad = some Outcome.deleted →
      (trim content).isEmpty = true ∨
        (∃ stripped b p, stripPfx content dashesNl = some stripped ∧
          findSub stripped nlDashesNl = some b ∧
          splitAtByte content (4 + b + 5) = some p ∧ (trim p.2).isEmpty = true)) := by
  constructor
  · intro content ad
    unfold process_md_pair
    cases h : process_md_file content ad with
    | none => simp
    | some o => cases o <;> simp
  · intro content ad h
    by_cases h1 : (trim content).isEmpty
    · exact Or.inl h1
    refine Or.inr ?_
    unfold process_md_file at h
    rw [if_neg h1] at h
    dsimp only at h
    cases hsp : stripPfx content dashesNl with
    | none =>
      rw [hsp] at h
      dsimp only at h
      split at h
      · rename_i hcond
        exact absurd hcond.1 (by simp)
      · split at h <;> simp at h
    | some stripped =>
      rw [hsp] at h
      dsimp only at h
      cases hfind : findSub stripped nlDashesNl with
      | none =>
        rw [hfind] at h
        dsimp only at h
        split at h
        · rename_i hcond
          exact absurd hcond.1 (by simp)
        · split at h <;> simp at h
      | some b =>
        rw [hfind] at h
        dsimp only at h
        cases hsplit : splitAtByte content (4 + b + 5) with
        | none => rw [hsplit] at h; simp at h
        | some p =>
          rw [hsplit] at h
          dsimp only at h
          split at h
          · rename_i hcond
            exact ⟨stripped, b, p, rfl, hfind, hsplit, hcond.2⟩
          · split at h <;> simp at h

/-- Witness for `c10_deleted_modified_exclusive` at a concrete input. -/
theorem c10_witness :
    process_md_pair (("x").data) true ≠ some (true, true) ∧
    ((trim (("   ").data)).isEmpty = true ∨
      (∃ stripped b p, stripPfx (("   ").data) dashesNl = some stripped ∧
        findSub stripped nlDashesNl = some b ∧
        splitAtByte (("   ").data) (4 + b + 5) = some p ∧ (trim p.2).isEmpty = true)) := by
  refine ⟨c10_deleted_modified_exclusive.1 (("x").data) true, ?_⟩
  exact c10_deleted_modified_exclusive.2 (("   ").data) true (by decide)

/-- Claim C4 (corrected): for every input, any two adjacent blank lines in
the Line Normalizer's output both carry a protected label when the output
itself is re-scanned with the loop's own region rules (frontmatter toggled
by a first line and a later line trimming to `---`, fences opened and
closed by marker lines); equivalently, no run of 2+ blank output lines
survives outside the regions the code tracks.  The claim's own region
reading — a frontmatter requiring both an opening and a closing `---` —
fails on unterminated frontmatter, see the counterexample. -/
theorem c4_blank_runs (c : List Char) (i : Nat) (a b : List Char)
    (h1 : (outLines c)[i]? = some a) (h2 : (outLines c)[i + 1]? = some b)
    (hba : isBlank a = true) (hbb : isBlank b = true) :
    (protLabels (outLines c))[i]? = some true ∧
      (protLabels (outLines c))[i + 1]? = some true := by
  have inv := Inv_loop (linesOf c) initSt (Inv_init (linesOf c))
  exact inv.good i a b h1 h2 hba hbb

/-- Counterexample to claim C4 as stated: on `"---\nA\n\n\nB"` the output
equals the input and keeps two adjacent blank lines (indices 2 and 3),
yet no line after the opener trims to `---` (so, with the claim's
definition of frontmatter as needing both an opening and a closing
delimiter, there is no frontmatter region) and no line looks like a code
fence delimiter (so there is no fence region): a run of 2 blank lines
survives outside frontmatter and fence interiors. -/
theorem c4_counterexample :
    remove_multiple_blank_lines (("---\nA\n\n\nB").data) = ("---\nA\n\n\nB").data ∧
    outLines (("---\nA\n\n\nB").data) =
      [("---").data, ("A").data, [], [], ("B").data] ∧
    isBlank ((outLines (("---\nA\n\n\nB").data)).getD 2 (("x").data)) = true ∧
    isBlank ((outLines (("---\nA\n\n\nB").data)).getD 3 (("x").data)) = true ∧
    (∀ l ∈ (outLines (("---\nA\n\n\nB").data)).drop 1, trim l ≠ dashes) ∧
    (∀ l ∈ outLines (("---\nA\n\n\nB").data),
      startsWithL (trim l) btMark = false ∧ startsWithL (trim l) tdMark = false) := by
  decide

/-- Witness for `c4_blank_runs` at the document `"---\nA\n\n\nB\n---\nX"`:
output lines 2 and 3 are adjacent blanks, and the theorem yields protected
labels at both. -/
theorem c4_witness :
    (outLines (("---\nA\n\n\nB\n---\nX").data))[2]? = some [] ∧
    (outLines (("---\nA\n\n\nB\n---\nX").data))[2 + 1]? = some [] ∧
    ((protLabels (outLines (("---\nA\n\n\nB\n---\nX").data)))[2]? = some true ∧
      (protLabels (outLines (("---\nA\n\n\nB\n---\nX").data)))[2 + 1]? = some true) :=
  ⟨by decide, by decide,
    c4_blank_runs (("---\nA\n\n\nB\n---\nX").data) 2 [] [] (by decide) (by decide)
      (by decide) (by decide)⟩

end Mdfmt
